import Mathlib

/-
Verification of the paper_scraper repository core against its specification.

The Python sources are shallowly embedded: Python strings become lists of
characters (type Str below), Python floats used for retry delays become exact
rationals, Python dicts backing scraped records become either association
lists or total functions to an optional-value type that distinguishes an
absent key from a present one.  Every definition mirrors one function of the
repository; the file and line of the source are stated in each doc comment.
-/

namespace PaperScraper

/-! ### Basic string machinery (Python str operations on lists of chars) -/

/-- A Python string, modelled as its list of characters. -/
abbrev Str := List Char

/-- Python substring test (the "in" operator on str): the needle occurs
contiguously in the haystack.  An empty needle always matches, as in Python. -/
def containsSub (needle : Str) : Str → Bool
  | [] => needle.isPrefixOf []
  | c :: t => needle.isPrefixOf (c :: t) || containsSub needle t

/-- Python str.lower, modelled with the character-wise lowercase map. -/
def lowerStr (s : Str) : Str := s.map Char.toLower

/-- The Python whitespace set stripped by str.strip. -/
def isPyWs (c : Char) : Bool :=
  c = ' ' || c = '\t' || c = '\n' || c = '\r' || c = '\x0b' || c = '\x0c'

/-- Python str.strip: drop whitespace from both ends. -/
def pyStrip (s : Str) : Str :=
  ((s.dropWhile isPyWs).reverse.dropWhile isPyWs).reverse

/-- One pass of Python str.replace with a two-space pattern replaced by one
space: non-overlapping, scanning left to right. -/
def collapsePass : Str → Str
  | [] => []
  | [c] => [c]
  | c :: d :: t =>
    if c = ' ' ∧ d = ' ' then ' ' :: collapsePass t
    else c :: collapsePass (d :: t)

/-- Whether the string contains two adjacent spaces (the loop condition of the
whitespace-collapsing loop in _clean_text_field). -/
def hasDD : Str → Bool
  | [] => false
  | [_] => false
  | c :: d :: t => if c = ' ' ∧ d = ' ' then true else hasDD (d :: t)

/-- The while loop of _clean_text_field (src/paper_scraper/utils.py lines
240-242), run with explicit fuel.  Each pass with a double space present
strictly shortens the string, so fuel equal to the length suffices and the
fuel-exhausted branch is unreachable from collapseAll. -/
def collapseGo : Nat → Str → Str
  | 0, l => l
  | f + 1, l => if hasDD l then collapseGo f (collapsePass l) else l

/-- The fully collapsed string: the fixed point reached by the while loop. -/
def collapseAll (l : Str) : Str := collapseGo l.length l

/-- _clean_text_field (src/paper_scraper/utils.py lines 226-243): replace
newlines and carriage returns by spaces, collapse double spaces, strip. -/
def cleanText (l : Str) : Str :=
  pyStrip (collapseAll ((l.map fun c => if c = '\n' then ' ' else c).map
    fun c => if c = '\r' then ' ' else c))

/-- Python str.split with explicit fuel (one unit per scanning step; fuel
equal to the length of the scanned string suffices for a non-empty
separator). -/
def pySplitGo (sep : Str) : Nat → Str → Str → List Str
  | _, [], acc => [acc.reverse]
  | 0, l, acc => [acc.reverse ++ l]
  | f + 1, c :: t, acc =>
    if sep ≠ [] && sep.isPrefixOf (c :: t) then
      acc.reverse :: pySplitGo sep f ((c :: t).drop sep.length) []
    else
      pySplitGo sep f t (c :: acc)

/-- Python str.split on a non-empty separator. -/
def pySplit (sep l : Str) : List Str := pySplitGo sep l.length l []

/-- Python str.replace with explicit fuel (same fuel argument as pySplitGo). -/
def replaceAllGo (pat rep : Str) : Nat → Str → Str
  | _, [] => []
  | 0, l => l
  | f + 1, c :: t =>
    if pat ≠ [] && pat.isPrefixOf (c :: t) then
      rep ++ replaceAllGo pat rep f ((c :: t).drop pat.length)
    else
      c :: replaceAllGo pat rep f t

/-- Python str.replace for a non-empty pattern. -/
def replaceAll (pat rep l : Str) : Str := replaceAllGo pat rep l.length l

/-! ### Resilient Invoker: retry_with_backoff
(src/paper_scraper/utils.py lines 23-91)

The wrapped callable is modelled by the outcome of each attempt: attempt i
either returns a value or raises an exception carrying a message.  Delays are
Python floats; they are embedded as exact rationals, which preserves the
structure "min (delay * factor) maxDelay" of every delay computation.  The
trace records the outcome (the implicit "return None" of a zero-iteration
loop, a returned value, or a re-raised exception), how many times the wrapped
function was invoked, and the sequence of sleep durations. -/

/-- Outcome of one attempt of the wrapped function. -/
inductive Attempt (α : Type) where
  | ok (v : α)
  | err (msg : Str)
deriving DecidableEq

/-- What the wrapper does after the loop finishes. -/
inductive RetryOutcome (α : Type) where
  | retNone
  | retVal (v : α)
  | raised (msg : Str)
deriving DecidableEq

/-- Full observable behaviour of one call of the wrapper. -/
structure RetryTrace (α : Type) where
  outcome : RetryOutcome α
  calls : Nat
  sleeps : List Rat
deriving DecidableEq

/-- The rate-limit classification of retry_with_backoff
(src/paper_scraper/utils.py lines 60-64): the code checks the substrings
"429" and "Too Many Requests" case-sensitively and "rate limit" against the
lowercased message. -/
def isRateLimitErr (msg : Str) : Bool :=
  containsSub "429".data msg || containsSub "Too Many Requests".data msg ||
    containsSub "rate limit".data (lowerStr msg)

/-- The classification the specification describes: all three markers
matched case-insensitively.  Stated only to compare with isRateLimitErr. -/
def specRateLimitErr (msg : Str) : Bool :=
  containsSub "429".data (lowerStr msg) ||
    containsSub "too many requests".data (lowerStr msg) ||
    containsSub "rate limit".data (lowerStr msg)

/-- The retry loop of retry_with_backoff (src/paper_scraper/utils.py lines
52-88).  attempt is the current 0-based attempt index, remaining the number
of loop iterations left (so remaining = maxRetries - attempt); the Python
test "attempt < max_retries - 1" is exactly "1 ≤ remaining - 1". -/
def retryGo {α : Type} (behav : Nat → Attempt α) (attempt : Nat)
    (delay maxDelay factor : Rat) : Nat → RetryTrace α
  | 0 => ⟨RetryOutcome.retNone, 0, []⟩
  | r + 1 =>
    match behav attempt with
    | Attempt.ok v => ⟨RetryOutcome.retVal v, 1, []⟩
    | Attempt.err m =>
      if 0 < r then
        let wait := if isRateLimitErr m then min (delay * 2) maxDelay else delay
        let rest := retryGo behav (attempt + 1) (min (delay * factor) maxDelay)
          maxDelay factor r
        ⟨rest.outcome, rest.calls + 1, wait :: rest.sleeps⟩
      else
        ⟨RetryOutcome.raised m, 1, []⟩

/-- A call of a function wrapped by retry_with_backoff.  maxRetries is the
Python int max_retries; range(max_retries) iterates maxRetries.toNat times. -/
def runRetry {α : Type} (behav : Nat → Attempt α) (maxRetries : Int)
    (initialDelay maxDelay factor : Rat) : RetryTrace α :=
  retryGo behav 0 initialDelay maxDelay factor maxRetries.toNat

/-- The delay state before the i-th attempt: initially the initial delay and
after every failed non-final attempt updated to min (delay * factor, max). -/
def delayAt (d maxDelay factor : Rat) : Nat → Rat
  | 0 => d
  | n + 1 => min (delayAt d maxDelay factor n * factor) maxDelay

/-! ### Identity Deduplicator: deduplicate_papers
(src/paper_scraper/paper.py lines 181-216)

A record exposes its forum id either as an attribute or as a mapping key;
both access paths produce an optional value, so a record is embedded as that
optional identity plus an opaque payload distinguishing records.  The Python
truthiness test "if forum_id" makes a present-but-empty identity falsy. -/

/-- A scraped record as seen by deduplicate_papers. -/
structure PaperRec where
  forum : Option Str
  payload : Nat
deriving DecidableEq

/-- The loop of deduplicate_papers: keep a record whose truthy identity is
unseen, always keep a record with no identity, drop everything else.  The set
of seen ids is carried as a list used only through membership. -/
def dedupPapersGo (seen : List Str) : List PaperRec → List PaperRec
  | [] => []
  | p :: rest =>
    match p.forum with
    | some f =>
      if f ≠ [] ∧ f ∉ seen then p :: dedupPapersGo (f :: seen) rest
      else dedupPapersGo seen rest
    | none => p :: dedupPapersGo seen rest

/-- deduplicate_papers (src/paper_scraper/paper.py lines 181-216). -/
def deduplicatePapers (papers : List PaperRec) : List PaperRec :=
  if papers.isEmpty then [] else dedupPapersGo [] papers

/-! ### Venue Resolver: get_all_subgroups and the expansion loop of get_venues
(src/paper_scraper/venue.py lines 87-163 and 227-258)

The registry fetch collaborator is out of scope; the registry snapshot the
fetch returned is passed explicitly.  The compiled pattern
"^<escaped base>/.*" used with re.match holds of a venue exactly when the
venue starts with the base path followed by a slash, since ".*" also matches
the empty remainder. -/

/-- The group patterns get_all_subgroups never treats as paper venues
(src/paper_scraper/venue.py lines 138-147). -/
def excludePatterns : List Str :=
  ["/-/".data, "/Program_Chairs".data, "/Area_Chairs".data, "/Reviewers".data,
   "/Authors".data, "/Ethics_Reviewers".data, "/Senior_Area_Chairs".data,
   "/Action_Editors".data]

/-- Python '/'.join(parts): interleave a slash between the parts. -/
def joinSlash : List Str → Str
  | [] => []
  | [p] => p
  | p :: q :: rest => p ++ '/' :: joinSlash (q :: rest)

/-- get_all_subgroups (src/paper_scraper/venue.py lines 87-163) with the
fetched registry passed in: starting from the parent group alone, append every
registry member under the parent's base path that mentions a requested year,
matches no excluded role pattern, is no workshop when workshops are excluded,
and is not already collected. -/
def getAllSubgroups (registry : List Str) (parentGroupId : Str)
    (years : List Str) (excludeWorkshops : Bool) : List Str :=
  let basePath := joinSlash (pySplit "/".data parentGroupId).dropLast
  registry.foldl
    (fun acc venue =>
      if (basePath ++ ['/']).isPrefixOf venue
          && years.any (fun y => containsSub y venue)
          && !(excludePatterns.any fun e => containsSub e venue)
          && !(excludeWorkshops && containsSub "workshop".data (lowerStr venue))
          && !(acc.contains venue) then
        acc ++ [venue]
      else acc)
    [parentGroupId]

/-- _should_expand_venue (src/paper_scraper/venue.py lines 319-344). -/
def shouldExpandVenue (venue : Str) : Bool :=
  containsSub "/Conference".data venue
    && !(["Track".data, "Demo".data, "Workshop".data, "IAAI".data,
          "Tutorial".data].any fun pat => containsSub pat venue)

/-- The expansion step of get_venues (src/paper_scraper/venue.py lines
227-258): each already-filtered venue is appended, and when it is an umbrella
conference venue its subgroups other than the venue itself are appended when
not already present. -/
def expandVenues (registry : List Str) (filteredVenues : List Str)
    (years : List Str) (excludeWorkshops : Bool) : List Str :=
  filteredVenues.foldl
    (fun acc venue =>
      let acc' := acc ++ [venue]
      if shouldExpandVenue venue then
        (getAllSubgroups registry venue years excludeWorkshops).foldl
          (fun a sv => if sv ≠ venue ∧ sv ∉ a then a ++ [sv] else a) acc'
      else acc')
    []

/-! ### Record Normalizer: the Extractor class
(src/paper_scraper/extractor.py)

A record fed to the extractor is a Python value: None, a string, or a
mapping from names to further values.  Attribute-bearing objects read through
getattr answer field lookups exactly like mappings and default to the empty
string the same way, so the mapping constructor covers both access paths.
Result dicts are association lists with Python's insertion-order-preserving
update semantics. -/

/-- A Python value as handled by the extractor. -/
inductive PyVal where
  | vNone
  | vStr (s : Str)
  | vDict (entries : List (Str × PyVal))

/-- Python dict lookup: the value stored at a key. -/
def pyGet : List (Str × PyVal) → Str → Option PyVal
  | [], _ => none
  | (k, v) :: t, key => if k = key then some v else pyGet t key

/-- Python dict assignment d[k] = v: overwrite in place if the key exists,
else append, preserving insertion order. -/
def pySet : List (Str × PyVal) → Str → PyVal → List (Str × PyVal)
  | [], key, v => [(key, v)]
  | (k, w) :: t, key, v =>
    if k = key then (k, v) :: t else (k, w) :: pySet t key v

/-- Extractor._get_field_value (src/paper_scraper/extractor.py lines
109-131): mapping lookup with an empty-string default, no unwrapping. -/
def getFieldValue (obj : PyVal) (field : Str) : PyVal :=
  match obj with
  | PyVal.vNone => PyVal.vStr []
  | PyVal.vDict es => (pyGet es field).getD (PyVal.vStr [])
  | PyVal.vStr _ => PyVal.vStr []

/-- Extractor._get_nested_field_value (src/paper_scraper/extractor.py lines
133-163): like getFieldValue but a mapping value holding a "value" key is
unwrapped to the stored value. -/
def getNestedFieldValue (subfieldObj : PyVal) (field : Str) : PyVal :=
  match subfieldObj with
  | PyVal.vNone => PyVal.vStr []
  | PyVal.vDict es =>
    match (pyGet es field).getD (PyVal.vStr []) with
    | PyVal.vDict ves =>
      match pyGet ves "value".data with
      | some w => w
      | none => PyVal.vDict ves
    | v => v
  | PyVal.vStr _ => PyVal.vStr []

/-- Extractor.extract (src/paper_scraper/extractor.py lines 64-107): write
each top-level field, then for every subfield container write each leaf,
nested under the container's key or spliced into the top level. -/
def extract (fields : List Str) (subfields : List (Str × List Str))
    (includeSubfield : Bool) (paper : PyVal) : List (Str × PyVal) :=
  let d := fields.foldl (fun d f => pySet d f (getFieldValue paper f)) []
  subfields.foldl
    (fun d cf =>
      let subObj := getFieldValue paper cf.1
      if includeSubfield then
        pySet d cf.1 (PyVal.vDict
          (cf.2.foldl (fun d' f => pySet d' f (getNestedFieldValue subObj f)) []))
      else
        cf.2.foldl (fun d' f => pySet d' f (getNestedFieldValue subObj f)) d)
    d

/-! ### Approximate Filter Engine and the Scraper's filtering guard
(src/paper_scraper/filters.py lines 200-233 and
src/paper_scraper/scraper.py lines 243-295)

A configured filter is its Python function name together with the behaviour
of calling it on a record and the query keyword list; the fuzzy primitive
comparisons live inside that behaviour, which satisfies_any_filters treats as
opaque.  The per-record processing of _apply_on_papers that is independent of
acceptance (metadata injection, the caller-supplied transform functions and
the extractor call with year tagging) is a parameter of the venue loop. -/

/-- One entry of Scraper.filters: the function's __name__ and the result of
calling it with the record and keywords (bound extra args included). -/
structure PFilter where
  fname : Str
  run : PyVal → List Str → Option Str × Bool

/-- satisfies_any_filters (src/paper_scraper/filters.py lines 200-233):
return the first match as (matched keyword, filter name, true); with no
matching rule, or an empty rule list, return (none, none, false). -/
def satisfiesAnyFilters (paper : PyVal) (keywords : List Str) :
    List PFilter → Option Str × Option Str × Bool
  | [] => (none, none, false)
  | f :: rest =>
    let r := f.run paper keywords
    if r.2 then (r.1, some f.fname, true)
    else satisfiesAnyFilters paper keywords rest

/-- The per-venue record loop of Scraper._apply_on_papers
(src/paper_scraper/scraper.py lines 265-290): keyword filtering runs only
when both the filter list and the keyword list are non-empty (Python
truthiness of "self.filters and self.keywords"); an accepted record is
processed and appended. -/
def applyOnVenuePapers (filters : List PFilter) (keywords : List Str)
    (process : PyVal → PyVal) (venuePapers : List PyVal) : List PyVal :=
  venuePapers.foldl
    (fun acc paper =>
      if !filters.isEmpty && !keywords.isEmpty then
        if (satisfiesAnyFilters paper keywords filters).2.2 then
          acc ++ [process paper]
        else acc
      else acc ++ [process paper])
    []

/-! ### Incremental Tabular Persistence: to_csv
(src/paper_scraper/utils.py lines 194-401)

A row handed to to_csv is a Python dict.  It is embedded as a total function
from keys to a raw value that distinguishes an absent key (vAbsent) from a
present None, a present string, and any other present value whose cleanup by
_clean_value yields the given string (dicts and lists are serialized to JSON
text, other values to their str form).  All dict reads in to_csv go through
.get with a default, which this embedding reproduces exactly; dict writes
become function updates.  A cleaned row maps a key to none exactly when the
key was absent.  The written file is its matrix of cell strings; the byte
stream is obtained by the CSV serialization csvFile below, and the csv
DictReader used to re-read a file written by to_csv recovers precisely the
cell matrix keyed by the header, which parseRow reproduces. -/

/-- A raw Python dict value as to_csv receives it. -/
inductive PyRaw where
  | vAbsent
  | vNone
  | vStr (s : Str)
  | vOther (s : Str)
deriving DecidableEq

/-- A raw row: a dict from keys to raw values, absent keys included. -/
abbrev RawRow := Str → PyRaw

/-- A cleaned row as built inside the dedup loop of to_csv: every present
key holds a cleaned string. -/
abbrev CRow := Str → Option Str

/-- _clean_value (src/paper_scraper/utils.py lines 206-223) on a present
value: None becomes the empty string, strings stay, anything else is its
serialized text. -/
def cleanValue : PyRaw → Str
  | PyRaw.vAbsent => []
  | PyRaw.vNone => []
  | PyRaw.vStr s => s
  | PyRaw.vOther s => s

/-- TEXT_FIELDS_TO_CLEAN (src/paper_scraper/utils.py line 203). -/
def textFieldsToClean : List Str := ["abstract".data, "title".data, "keywords".data]

/-- DEFAULT_CSV_FIELDS (src/paper_scraper/utils.py lines 197-200). -/
def defaultCsvFields : List Str :=
  ["id".data, "title".data, "keywords".data, "abstract".data,
   "pdf".data, "forum".data, "year".data, "presentation_type".data]

/-- The cleaning loop of to_csv (src/paper_scraper/utils.py lines 338-343):
clean every present value, additionally normalizing whitespace of the
designated text fields. -/
def cleanRow (r : RawRow) : CRow := fun k =>
  match r k with
  | PyRaw.vAbsent => none
  | v =>
    some (if k ∈ textFieldsToClean then cleanText (cleanValue v) else cleanValue v)

/-- _extract_forum_id (src/paper_scraper/utils.py lines 246-265). -/
def extractForumId (forum : Str) : Option Str :=
  if pyStrip forum = [] then none
  else if containsSub "forum?id=".data forum then
    some (((pySplit "&".data ((pySplit "forum?id=".data forum).getLastD [])).headD []))
  else if forum.contains '/' && forum.length > 20 then
    some (((pySplit "?".data ((pySplit "/".data forum).getLastD [])).headD []))
  else some (pyStrip forum)

/-- The join key of the dedup loop (src/paper_scraper/utils.py lines
345-354): a truthy extracted forum id, else stripped title and year joined
by a bar. -/
def uniqueKey (c : CRow) : Str :=
  let fid := (extractForumId ((c "forum".data).getD [])).getD []
  if fid ≠ [] then fid
  else pyStrip ((c "title".data).getD []) ++ '|' :: pyStrip ((c "year".data).getD [])

/-- The presentation_priority lookup (src/paper_scraper/utils.py line 368)
with its default 3 for unknown labels. -/
def priorityOf (pt : Str) : Nat :=
  if pt = "Oral".data then 0
  else if pt = "Spotlight".data then 1
  else if pt = "Poster".data then 2
  else 3

/-- sort_key (src/paper_scraper/utils.py lines 370-374): the presentation
type defaults to Poster when the key is absent, the tiebreak is the
lowercased title. -/
def sortKey (c : CRow) : Nat × Str :=
  (priorityOf ((c "presentation_type".data).getD "Poster".data),
   lowerStr ((c "title".data).getD []))

/-- Python string comparison, lexicographic on character code points. -/
def strLe : Str → Str → Bool
  | [], _ => true
  | _ :: _, [] => false
  | a :: as, b :: bs => if a < b then true else if a = b then strLe as bs else false

/-- Python tuple comparison on the sort keys of to_csv. -/
def keyLe (p q : Nat × Str) : Bool :=
  p.1 < q.1 || (p.1 = q.1 && strLe p.2 q.2)

/-- Insertion into a sorted list, before the first element of greater-or-equal
key.  Elements are inserted right to left from the original list, so equal
keys keep their original order: this is the stable ascending sort contract of
Python's list.sort, which determines its output uniquely. -/
def insertSorted {α : Type} (key : α → Nat × Str) (x : α) : List α → List α
  | [] => [x]
  | h :: t =>
    if keyLe (key x) (key h) then x :: h :: t else h :: insertSorted key x t

/-- A stable ascending sort by key, extensionally equal to list.sort. -/
def isortBy {α : Type} (key : α → Nat × Str) : List α → List α
  | [] => []
  | x :: xs => insertSorted key x (isortBy key xs)

/-- The dedup loop of to_csv (src/paper_scraper/utils.py lines 332-360): keep
a row whose join key is unseen, remember the key, drop repeats.  The Python
set of seen keys is carried as a list used only through membership. -/
def dedupRows (seen : List Str) : List CRow → List CRow
  | [] => []
  | c :: rest =>
    if uniqueKey c ∈ seen then dedupRows seen rest
    else c :: dedupRows (uniqueKey c :: seen) rest

/-- The seen-key set after the dedup loop has processed a list. -/
def seenAfter (seen : List Str) : List CRow → List Str
  | [] => seen
  | c :: rest =>
    if uniqueKey c ∈ seen then seenAfter seen rest
    else seenAfter (uniqueKey c :: seen) rest

/-- Decimal digits of a number, as written by Python str formatting. -/
def natToStr (n : Nat) : Str := Nat.toDigits 10 n

/-- A dict write of the id field (src/paper_scraper/utils.py line 381). -/
def setId (v : Str) (c : CRow) : CRow := fun k =>
  if k = "id".data then some v else c k

/-- The id regeneration loop (src/paper_scraper/utils.py lines 379-381):
enumerate the sorted rows from 1 and overwrite each id with slug_index. -/
def assignIdsGo (slug : Str) (n : Nat) : List CRow → List CRow
  | [] => []
  | c :: t => setId (slug ++ '_' :: natToStr n) c :: assignIdsGo slug (n + 1) t

/-- The conference slug derivation from the output file name
(src/paper_scraper/utils.py lines 294-301). -/
def conferenceNameOf (filename : Str) : Option Str :=
  if containsSub "_papers.csv".data filename then
    some (lowerStr (replaceAll "_papers.csv".data [] filename))
  else if containsSub ".csv".data filename then
    some (lowerStr (replaceAll ".csv".data [] filename))
  else none

/-- One written row (src/paper_scraper/utils.py line 395): the row's value at
every declared field, defaulting to the empty string. -/
def writeRow (c : CRow) : List Str :=
  defaultCsvFields.map fun f => (c f).getD []

/-- First value stored under a key in an association list. -/
def assocLookup : List (Str × Str) → Str → Option Str
  | [], _ => none
  | (k, v) :: t, key => if k = key then some v else assocLookup t key

/-- Re-reading one written row with csv.DictReader: the row dict holds
exactly the header fields, bound to the written cells. -/
def parseRow (cells : List Str) : RawRow := fun k =>
  match assocLookup (defaultCsvFields.zip cells) k with
  | some v => PyRaw.vStr v
  | none => PyRaw.vAbsent

/-- Re-reading a whole written file (src/paper_scraper/utils.py lines
317-326). -/
def parseCsv (rows : List (List Str)) : List RawRow := rows.map parseRow

/-- to_csv (src/paper_scraper/utils.py lines 268-401) at the default field
list, producing the matrix of written data cells.  existing is the parsed
content of the target file when append is on, it exists and is readable, and
none otherwise; slug is the conference name derived from the file name.  An
empty input list short-circuits to a header-only file (no data rows). -/
def toCsvRows (papersList : List RawRow) (existing : Option (List RawRow))
    (slug : Option Str) : List (List Str) :=
  if papersList.isEmpty then []
  else
    let allPapers := papersList ++ (existing.getD [])
    let uniquePapers := dedupRows [] (allPapers.map cleanRow)
    let sorted := isortBy sortKey uniquePapers
    let final := match slug with
      | some s => assignIdsGo s 1 sorted
      | none => sorted
    final.map writeRow

/-- csv.QUOTE_MINIMAL quoting of one cell: quote when the cell holds the
delimiter, the quote char, or a line-break character, doubling quotes. -/
def csvQuoteCell (s : Str) : Str :=
  if s.contains ',' || s.contains '"' || s.contains '\n' || s.contains '\r' then
    '"' :: (s.flatMap fun c => if c = '"' then ['"', '"'] else [c]) ++ ['"']
  else s

/-- One serialized CSV line, terminated by a newline. -/
def csvLine (cells : List Str) : Str :=
  joinComma (cells.map csvQuoteCell) ++ ['\n']
where
  joinComma : List Str → Str
    | [] => []
    | [x] => x
    | x :: y :: t => x ++ ',' :: joinComma (y :: t)

/-- The byte-for-byte content of the written file: the utf-8-sig byte order
mark, the header line over the default fields, then every data row. -/
def csvFile (rows : List (List Str)) : Str :=
  Char.ofNat 0xFEFF :: csvLine defaultCsvFields ++ (rows.map csvLine).flatten

/-- The full file written by to_csv. -/
def toCsvFile (papersList : List RawRow) (existing : Option (List RawRow))
    (slug : Option Str) : Str :=
  csvFile (toCsvRows papersList existing slug)

/-- The files the export itself can have produced: no file yet, or the parse
of the output of some earlier to_csv call on such a file. -/
inductive ExportProduced : Option (List RawRow) → Prop where
  | nofile : ExportProduced none
  | step (m : List RawRow) (f : Option (List RawRow)) (slug : Option Str) :
      ExportProduced f → ExportProduced (some (parseCsv (toCsvRows m f slug)))

/-- The single new row of the export scenario of the specification. -/
def scenarioRow : RawRow := fun k =>
  if k = "title".data then PyRaw.vStr "A".data
  else if k = "forum".data then PyRaw.vStr "http://x/forum?id=p1".data
  else if k = "year".data then PyRaw.vStr "2024".data
  else PyRaw.vAbsent

/-- A pre-existing row as csv.DictReader yields it from a handcrafted file
whose header lacks the presentation_type column: that key is absent from the
row dict rather than bound to the empty string. -/
def handRowNoPT : RawRow := fun k =>
  if k = "title".data then PyRaw.vStr "zzz".data
  else if k = "forum".data then PyRaw.vStr "z1".data
  else PyRaw.vAbsent

/-- A new row carrying an unrecognized presentation_type label. -/
def newRowOtherPT : RawRow := fun k =>
  if k = "title".data then PyRaw.vStr "aaa".data
  else if k = "forum".data then PyRaw.vStr "a1".data
  else if k = "presentation_type".data then PyRaw.vStr "x".data
  else PyRaw.vAbsent

/-- Restriction of a cleaned row to the written fields: the shape a row takes
after a write-then-reread round trip through the file. -/
def restrictR (c : CRow) : CRow := fun k =>
  if k ∈ defaultCsvFields then some ((c k).getD []) else none

/-- A cleaned row with its id column blanked; two rows with the same image
under writeRow composed with blankIdRow are written identically once the id
regeneration loop has overwritten the id column. -/
def blankIdRow (c : CRow) : CRow := fun k =>
  if k = "id".data then some [] else c k

/-- A cleaned row whose text-field values are fixed by the whitespace
normalizer; every output of cleanRow satisfies this. -/
def CleanCRow (c : CRow) : Prop :=
  ∀ k s, c k = some s → k ∈ textFieldsToClean → cleanText s = s

/-- A raw row as produced by re-reading a file that to_csv wrote: every
declared field is present as a string whose text fields are clean, and no
other key is present. -/
def RawOKRow (r : RawRow) : Prop :=
  (∀ k, k ∈ defaultCsvFields →
    ∃ s, r k = PyRaw.vStr s ∧ (k ∈ textFieldsToClean → cleanText s = s)) ∧
  (∀ k, k ∉ defaultCsvFields → r k = PyRaw.vAbsent)

/-! ## Theorems

### The retry loop -/

theorem retryGo_ok {α : Type} (behav : Nat → Attempt α) (M F : Rat) :
    ∀ (k a : Nat) (d : Rat) (r : Nat) (v : α),
      (∀ i, i < k → ∃ m, behav (a + i) = Attempt.err m) →
      behav (a + k) = Attempt.ok v → k < r →
      (retryGo behav a d M F r).outcome = RetryOutcome.retVal v ∧
        (retryGo behav a d M F r).calls = k + 1
  | 0, a, d, r, v, _, hok, hk => by
    obtain ⟨r', rfl⟩ : ∃ r', r = r' + 1 := ⟨r - 1, by omega⟩
    rw [Nat.add_zero] at hok
    simp [retryGo, hok]
  | k + 1, a, d, r, v, herr, hok, hk => by
    obtain ⟨r', rfl⟩ : ∃ r', r = r' + 1 := ⟨r - 1, by omega⟩
    obtain ⟨m, hm⟩ := herr 0 (Nat.succ_pos k)
    rw [Nat.add_zero] at hm
    have hr' : 0 < r' := by omega
    have ih := retryGo_ok behav M F k (a + 1) (min (d * F) M) r' v
      (fun i hi => by
        have := herr (i + 1) (by omega)
        rwa [show a + (i + 1) = a + 1 + i by omega] at this)
      (by rwa [show a + 1 + k = a + (k + 1) by omega])
      (by omega)
    simp [retryGo, hm, hr', ih.1, ih.2]

theorem retryGo_allfail {α : Type} (behav : Nat → Attempt α) (M F : Rat) :
    ∀ (r a : Nat) (d : Rat) (m : Str),
      0 < r →
      (∀ i, i < r → ∃ m', behav (a + i) = Attempt.err m') →
      behav (a + (r - 1)) = Attempt.err m →
      (retryGo behav a d M F r).outcome = RetryOutcome.raised m
  | 0, _, _, _, h0, _, _ => absurd h0 (by omega)
  | r + 1, a, d, m, _, herr, hlast => by
    obtain ⟨m0, hm0⟩ := herr 0 (by omega)
    rw [Nat.add_zero] at hm0
    by_cases hr : 0 < r
    · have ih := retryGo_allfail behav M F r (a + 1) (min (d * F) M) m hr
        (fun i hi => by
          have := herr (i + 1) (by omega)
          rwa [show a + (i + 1) = a + 1 + i by omega] at this)
        (by rwa [show a + 1 + (r - 1) = a + (r + 1 - 1) by omega])
      simp [retryGo, hm0, hr, ih]
    · have hr0 : r = 0 := by omega
      subst hr0
      rw [show a + (0 + 1 - 1) = a by omega] at hlast
      rw [hlast] at hm0
      cases hm0
      simp [retryGo, hlast]

theorem retryGo_raised_inv {α : Type} (behav : Nat → Attempt α) (M F : Rat) :
    ∀ (r a : Nat) (d : Rat) (m : Str),
      (retryGo behav a d M F r).outcome = RetryOutcome.raised m →
      (∀ i, i < r → ∃ m', behav (a + i) = Attempt.err m') ∧
        behav (a + (r - 1)) = Attempt.err m
  | 0, a, d, m, h => by simp [retryGo] at h
  | r + 1, a, d, m, h => by
    cases hb : behav a with
    | ok v => simp [retryGo, hb] at h
    | err m0 =>
      by_cases hr : 0 < r
      · rw [show retryGo behav a d M F (r + 1) =
            ⟨(retryGo behav (a + 1) (min (d * F) M) M F r).outcome,
             (retryGo behav (a + 1) (min (d * F) M) M F r).calls + 1,
             (if isRateLimitErr m0 then min (d * 2) M else d) ::
               (retryGo behav (a + 1) (min (d * F) M) M F r).sleeps⟩ by
          simp [retryGo, hb, hr]] at h
        have ih := retryGo_raised_inv behav M F r (a + 1) (min (d * F) M) m h
        refine ⟨fun i hi => ?_, ?_⟩
        · match i with
          | 0 => exact ⟨m0, by rwa [Nat.add_zero]⟩
          | i + 1 =>
            have := ih.1 i (by omega)
            rwa [show a + 1 + i = a + (i + 1) by omega] at this
        · have := ih.2
          rwa [show a + 1 + (r - 1) = a + (r + 1 - 1) by omega] at this
      · have hr0 : r = 0 := by omega
        subst hr0
        have : m0 = m := by simpa [retryGo, hb] using h
        subst this
        refine ⟨fun i hi => ?_, by simpa using hb⟩
        have : i = 0 := by omega
        subst this
        exact ⟨m0, by simpa using hb⟩

theorem delayAt_shift (d M F : Rat) :
    ∀ i, delayAt (min (d * F) M) M F i = delayAt d M F (i + 1)
  | 0 => rfl
  | i + 1 => by
    show min (delayAt (min (d * F) M) M F i * F) M = _
    rw [delayAt_shift d M F i]
    rfl

theorem retryGo_sleep {α : Type} (behav : Nat → Attempt α) (M F : Rat) :
    ∀ (i a : Nat) (d : Rat) (r : Nat) (m : Str),
      (∀ j, j ≤ i → ∃ m', behav (a + j) = Attempt.err m') →
      behav (a + i) = Attempt.err m →
      i + 1 < r →
      (retryGo behav a d M F r).sleeps.get? i =
        some (if isRateLimitErr m then min (delayAt d M F i * 2) M
              else delayAt d M F i)
  | 0, a, d, r, m, _, hm, hi => by
    obtain ⟨r', rfl⟩ : ∃ r', r = r' + 1 := ⟨r - 1, by omega⟩
    rw [Nat.add_zero] at hm
    have hr' : 0 < r' := by omega
    simp [retryGo, hm, hr', delayAt]
  | i + 1, a, d, r, m, herr, hm, hi => by
    obtain ⟨r', rfl⟩ : ∃ r', r = r' + 1 := ⟨r - 1, by omega⟩
    obtain ⟨m0, hm0⟩ := herr 0 (by omega)
    rw [Nat.add_zero] at hm0
    have hr' : 0 < r' := by omega
    have ih := retryGo_sleep behav M F i (a + 1) (min (d * F) M) r' m
      (fun j hj => by
        have := herr (j + 1) (by omega)
        rwa [show a + (j + 1) = a + 1 + j by omega] at this)
      (by rwa [show a + 1 + i = a + (i + 1) by omega])
      (by omega)
    rw [delayAt_shift] at ih
    simp only [retryGo, hm0, hr', if_true]
    simpa [retryGo, hm0, hr'] using ih

/-- C2: for every wrapped call and every retries bound N of at least 1, if
the first k attempts fail and attempt k (0-based) succeeds within the bound,
runRetry returns that attempt's value having invoked the call exactly k + 1
times; if the retries are exhausted it re-raises the last attempt's
exception, and an exception propagates only on that path. -/
theorem retry_success_or_reraise_last {α : Type} (behav : Nat → Attempt α)
    (N : Int) (d M F : Rat) (hN : 1 ≤ N) :
    (∀ (k : Nat) (v : α), (∀ i, i < k → ∃ m, behav i = Attempt.err m) →
        (k : Int) < N → behav k = Attempt.ok v →
        (runRetry behav N d M F).outcome = RetryOutcome.retVal v ∧
          (runRetry behav N d M F).calls = k + 1) ∧
    (∀ m, (∀ i : Nat, (i : Int) < N → ∃ m', behav i = Attempt.err m') →
        behav (N.toNat - 1) = Attempt.err m →
        (runRetry behav N d M F).outcome = RetryOutcome.raised m) ∧
    (∀ m, (runRetry behav N d M F).outcome = RetryOutcome.raised m →
        (∀ i : Nat, (i : Int) < N → ∃ m', behav i = Attempt.err m') ∧
          behav (N.toNat - 1) = Attempt.err m) := by
  refine ⟨fun k v herr hk hok => ?_, fun m herr hlast => ?_, fun m h => ?_⟩
  · exact retryGo_ok behav M F k 0 d N.toNat v
      (by simpa using herr) (by simpa using hok) (by omega)
  · exact retryGo_allfail behav M F N.toNat 0 d m (by omega)
      (fun i hi => by simpa using herr i (by omega)) (by simpa using hlast)
  · have := retryGo_raised_inv behav M F N.toNat 0 d m h
    exact ⟨fun i hi => by simpa using this.1 i (by omega), by simpa using this.2⟩

/-- Witness for C2 at a call that fails once and then succeeds, with three
retries allowed. -/
theorem retry_success_or_reraise_last_witness :
    (runRetry (fun i => if i = 0 then Attempt.err "boom".data else Attempt.ok 5)
        3 1 60 2).outcome = RetryOutcome.retVal 5 ∧
      (runRetry (fun i => if i = 0 then Attempt.err "boom".data else Attempt.ok 5)
        3 1 60 2).calls = 2 :=
  (retry_success_or_reraise_last
      (fun i => if i = 0 then Attempt.err "boom".data else Attempt.ok 5)
      3 1 60 2 (by decide)).1 1 5
    (fun i hi => ⟨"boom".data, by
      have h0 : i = 0 := by omega
      subst h0; rfl⟩)
    (by decide) rfl

/-- C3 (amended): for every failed attempt that is not the last, the sleep
duration is min (delay * 2, max) when the message holds the substring 429 or
the substring Too Many Requests case-sensitively or the substring rate limit
case-insensitively, and the plain delay otherwise; the delay seen by attempt
i is the i-fold update delay = min (delay * factor, max) of the initial
delay, performed after every failed non-final attempt regardless of the
classification. -/
theorem retry_sleep_classification {α : Type} (behav : Nat → Attempt α)
    (N : Int) (d M F : Rat) (i : Nat) (m : Str)
    (herr : ∀ j, j ≤ i → ∃ m', behav j = Attempt.err m')
    (hm : behav i = Attempt.err m) (hi : (i : Int) + 1 < N) :
    (runRetry behav N d M F).sleeps.get? i =
      some (if isRateLimitErr m then min (delayAt d M F i * 2) M
            else delayAt d M F i) :=
  retryGo_sleep behav M F i 0 d N.toNat m
    (by simpa using herr) (by simpa using hm) (by omega)

/-- Witness for C3 at a call that always raises a 429 message: the second
sleep of a three-attempt run follows the rate-limit formula at the once
escalated delay. -/
theorem retry_sleep_classification_witness :
    (runRetry (fun _ => (Attempt.err "got 429".data : Attempt Nat))
        3 1 60 2).sleeps.get? 1 =
      some (if isRateLimitErr "got 429".data
            then min (delayAt 1 60 2 1 * 2) 60 else delayAt 1 60 2 1) :=
  retry_sleep_classification (fun _ => (Attempt.err "got 429".data : Attempt Nat))
    3 1 60 2 1 "got 429".data (fun j _ => ⟨"got 429".data, rfl⟩) rfl (by decide)

/-- Counterexample to C3 as stated: the message handed back by the failing
call reads too many requests in lower case, which the claim's
case-insensitive reading classifies as a rate-limit failure, yet the code
classifies it as generic and sleeps the plain delay 1 rather than
min (delay * 2, max) = 2. -/
theorem retry_sleep_classification_counterexample :
    specRateLimitErr "too many requests".data = true ∧
      isRateLimitErr "too many requests".data = false ∧
      (runRetry (fun _ => (Attempt.err "too many requests".data : Attempt Nat))
          2 1 60 2).sleeps = [1] ∧
      (1 : Rat) ≠ min ((1 : Rat) * 2) 60 := by
  refine ⟨by decide, by decide, rfl, by norm_num⟩

/-- C10: with a retries bound of zero or less, the loop body never runs: the
wrapped function is not invoked, nothing is raised, and the wrapper falls
through returning None. -/
theorem retry_nonpositive_bound_returns_none {α : Type}
    (behav : Nat → Attempt α) (N : Int) (d M F : Rat) (hN : N ≤ 0) :
    runRetry behav N d M F =
      ⟨RetryOutcome.retNone, 0, []⟩ := by
  have h0 : N.toNat = 0 := by omega
  unfold runRetry
  rw [h0]
  rfl

/-- Witness for C10 at bound -2. -/
theorem retry_nonpositive_bound_returns_none_witness :
    runRetry (fun _ => (Attempt.ok 3 : Attempt Nat)) (-2) 1 60 2 =
      ⟨RetryOutcome.retNone, 0, []⟩ :=
  retry_nonpositive_bound_returns_none _ (-2) 1 60 2 (by decide)

/-! ### The identity deduplicator -/

theorem dedupPapersGo_idem :
    ∀ (l : List PaperRec) (seen : List Str),
      dedupPapersGo seen (dedupPapersGo seen l) = dedupPapersGo seen l
  | [], seen => rfl
  | p :: rest, seen => by
    cases hf : p.forum with
    | none =>
      simp only [dedupPapersGo, hf]
      rw [dedupPapersGo_idem rest seen]
    | some f =>
      by_cases hc : f ≠ [] ∧ f ∉ seen
      · simp only [dedupPapersGo, hf, if_pos hc]
        rw [dedupPapersGo_idem rest (f :: seen)]
      · simp only [dedupPapersGo, hf, if_neg hc]
        exact dedupPapersGo_idem rest seen

theorem dedupPapersGo_sublist :
    ∀ (l : List PaperRec) (seen : List Str),
      (dedupPapersGo seen l).Sublist l
  | [], _ => List.Sublist.refl []
  | p :: rest, seen => by
    cases hf : p.forum with
    | none =>
      simp only [dedupPapersGo, hf]
      exact (dedupPapersGo_sublist rest seen).cons₂ p
    | some f =>
      by_cases hc : f ≠ [] ∧ f ∉ seen
      · simp only [dedupPapersGo, hf, if_pos hc]
        exact (dedupPapersGo_sublist rest (f :: seen)).cons₂ p
      · simp only [dedupPapersGo, hf, if_neg hc]
        exact (dedupPapersGo_sublist rest seen).cons p

theorem dedupPapersGo_filter_none :
    ∀ (l : List PaperRec) (seen : List Str),
      (dedupPapersGo seen l).filter (fun p => decide (p.forum = none)) =
        l.filter (fun p => decide (p.forum = none))
  | [], _ => rfl
  | p :: rest, seen => by
    cases hf : p.forum with
    | none =>
      simp only [dedupPapersGo, hf]
      simp [List.filter_cons, hf, dedupPapersGo_filter_none rest seen]
    | some f =>
      by_cases hc : f ≠ [] ∧ f ∉ seen
      · simp only [dedupPapersGo, hf, if_pos hc]
        simp [List.filter_cons, hf, dedupPapersGo_filter_none rest (f :: seen)]
      · simp only [dedupPapersGo, hf, if_neg hc]
        simp [List.filter_cons, hf, dedupPapersGo_filter_none rest seen]

theorem dedupPapersGo_filter_key :
    ∀ (l : List PaperRec) (seen : List Str) (f : Str), f ≠ [] →
      (f ∉ seen →
        (dedupPapersGo seen l).filter (fun p => decide (p.forum = some f)) =
          (l.filter (fun p => decide (p.forum = some f))).take 1) ∧
      (f ∈ seen →
        (dedupPapersGo seen l).filter (fun p => decide (p.forum = some f)) = [])
  | [], seen, f, _ => ⟨fun _ => rfl, fun _ => rfl⟩
  | p :: rest, seen, f, hf => by
    cases hp : p.forum with
    | none =>
      constructor
      · intro hns
        simp only [dedupPapersGo, hp]
        simp [List.filter_cons, hp,
          (dedupPapersGo_filter_key rest seen f hf).1 hns]
      · intro hs
        simp only [dedupPapersGo, hp]
        simp [List.filter_cons, hp,
          (dedupPapersGo_filter_key rest seen f hf).2 hs]
    | some g =>
      by_cases hc : g ≠ [] ∧ g ∉ seen
      · by_cases hgf : g = f
        · subst hgf
          constructor
          · intro hns
            simp only [dedupPapersGo, hp, if_pos hc]
            simp [List.filter_cons, hp,
              (dedupPapersGo_filter_key rest (g :: seen) g hf).2
                (List.mem_cons_self g seen)]
          · intro hs
            exact absurd hs hc.2
        · constructor
          · intro hns
            have hfg : f ∉ (g :: seen) := by
              simp only [List.mem_cons]
              rintro (h | h)
              · exact hgf h.symm
              · exact hns h
            simp only [dedupPapersGo, hp, if_pos hc]
            simp [List.filter_cons, hp, hgf,
              (dedupPapersGo_filter_key rest (g :: seen) f hf).1 hfg]
          · intro hs
            simp only [dedupPapersGo, hp, if_pos hc]
            simp [List.filter_cons, hp, hgf,
              (dedupPapersGo_filter_key rest (g :: seen) f hf).2
                (List.mem_cons_of_mem g hs)]
      · constructor
        · intro hns
          have hgf : g ≠ f := by
            intro h; subst h
            rcases not_and_or.mp hc with h1 | h2
            · exact h1 hf
            · exact hns (not_not.mp h2)
          simp only [dedupPapersGo, hp, if_neg hc]
          simp [List.filter_cons, hp, hgf,
            (dedupPapersGo_filter_key rest seen f hf).1 hns]
        · intro hs
          simp only [dedupPapersGo, hp, if_neg hc]
          exact (dedupPapersGo_filter_key rest seen f hf).2 hs

theorem deduplicatePapers_eq_go (x : List PaperRec) :
    deduplicatePapers x = dedupPapersGo [] x := by
  unfold deduplicatePapers
  by_cases hx : x.isEmpty
  · rw [if_pos hx]
    rw [List.isEmpty_iff] at hx
    subst hx
    rfl
  · rw [if_neg hx]

/-- C6: deduplicate_papers is idempotent, keeps records in input order (its
output is a sublist of the input), and for every non-empty identity the
surviving record is the first occurrence of that identity in the input. -/
theorem dedupe_idempotent_first_occurrence (x : List PaperRec) :
    deduplicatePapers (deduplicatePapers x) = deduplicatePapers x ∧
    (deduplicatePapers x).Sublist x ∧
    ∀ f : Str, f ≠ [] →
      (deduplicatePapers x).filter (fun p => decide (p.forum = some f)) =
        (x.filter (fun p => decide (p.forum = some f))).take 1 := by
  rw [deduplicatePapers_eq_go, deduplicatePapers_eq_go]
  exact ⟨dedupPapersGo_idem x [], dedupPapersGo_sublist x [],
    fun f hf => (dedupPapersGo_filter_key x [] f hf).1 (by simp)⟩

/-- Witness for C6 on a list holding a duplicated identity, an identity-less
record and the identity a. -/
theorem dedupe_idempotent_first_occurrence_witness :
    deduplicatePapers (deduplicatePapers
        [⟨some "a".data, 0⟩, ⟨none, 1⟩, ⟨some "a".data, 2⟩]) =
      deduplicatePapers [⟨some "a".data, 0⟩, ⟨none, 1⟩, ⟨some "a".data, 2⟩] ∧
    (deduplicatePapers [⟨some "a".data, 0⟩, ⟨none, 1⟩, ⟨some "a".data, 2⟩]).Sublist
      [⟨some "a".data, 0⟩, ⟨none, 1⟩, ⟨some "a".data, 2⟩] ∧
    (deduplicatePapers [⟨some "a".data, 0⟩, ⟨none, 1⟩, ⟨some "a".data, 2⟩]).filter
        (fun p => decide (p.forum = some "a".data)) =
      (([⟨some "a".data, 0⟩, ⟨none, 1⟩, ⟨some "a".data, 2⟩] :
          List PaperRec).filter (fun p => decide (p.forum = some "a".data))).take 1 :=
  ⟨(dedupe_idempotent_first_occurrence _).1,
   (dedupe_idempotent_first_occurrence _).2.1,
   (dedupe_idempotent_first_occurrence _).2.2 "a".data (by decide)⟩

/-- C7: records whose identity is absent always survive deduplicate_papers,
with multiplicity and order, even as byte-for-byte identical copies. -/
theorem dedupe_keeps_identityless (x : List PaperRec) :
    (deduplicatePapers x).filter (fun p => decide (p.forum = none)) =
      x.filter (fun p => decide (p.forum = none)) := by
  rw [deduplicatePapers_eq_go]
  exact dedupPapersGo_filter_none x []

/-! ### The scraper's filtering guard -/

theorem foldl_append_map {α β : Type} (g : α → β) :
    ∀ (l : List α) (acc : List β),
      l.foldl (fun acc x => acc ++ [g x]) acc = acc ++ l.map g
  | [], acc => by simp
  | x :: t, acc => by
    simp only [List.foldl, List.map_cons]
    rw [foldl_append_map g t (acc ++ [g x])]
    simp

theorem applyOnVenuePapers_guard_off (filters : List PFilter)
    (keywords : List Str) (process : PyVal → PyVal)
    (hguard : (!filters.isEmpty && !keywords.isEmpty) = false)
    (l : List PyVal) (acc : List PyVal) :
    l.foldl
      (fun acc paper =>
        if !filters.isEmpty && !keywords.isEmpty then
          if (satisfiesAnyFilters paper keywords filters).2.2 then
            acc ++ [process paper]
          else acc
        else acc ++ [process paper])
      acc = acc ++ l.map process := by
  have hstep :
      (fun (acc : List PyVal) paper =>
        if !filters.isEmpty && !keywords.isEmpty then
          if (satisfiesAnyFilters paper keywords filters).2.2 then
            acc ++ [process paper]
          else acc
        else acc ++ [process paper]) =
      fun (acc : List PyVal) paper => acc ++ [process paper] := by
    funext a paper
    rw [hguard]
    simp
  rw [hstep]
  exact foldl_append_map process l acc

/-- C9: when the configured filter list is empty or the keyword list is
empty, the scraper's per-venue loop skips keyword filtering and accepts every
fetched record into the output, while satisfies_any_filters applied to an
empty rule list rejects every record. -/
theorem scraper_empty_filters_accepts_all (filters : List PFilter)
    (keywords : List Str) (process : PyVal → PyVal) (papers : List PyVal)
    (h : filters = [] ∨ keywords = []) :
    applyOnVenuePapers filters keywords process papers = papers.map process ∧
    ∀ (p : PyVal) (kw : List Str),
      satisfiesAnyFilters p kw [] = (none, none, false) := by
  refine ⟨?_, fun _ _ => rfl⟩
  have hguard : (!filters.isEmpty && !keywords.isEmpty) = false := by
    rcases h with h | h <;> subst h <;> simp
  unfold applyOnVenuePapers
  rw [applyOnVenuePapers_guard_off filters keywords process hguard papers []]
  rfl

/-- Witness for C9 on an empty filter list, a non-empty keyword list and one
record. -/
theorem scraper_empty_filters_accepts_all_witness :
    applyOnVenuePapers [] ["kw".data] id [PyVal.vNone] =
      ([PyVal.vNone] : List PyVal).map id ∧
    ∀ (p : PyVal) (kw : List Str),
      satisfiesAnyFilters p kw [] = (none, none, false) :=
  scraper_empty_filters_accepts_all [] ["kw".data] id [PyVal.vNone]
    (Or.inl rfl)

/-! ### The record normalizer -/

theorem pyGet_pySet_self :
    ∀ (d : List (Str × PyVal)) (k : Str) (v : PyVal),
      pyGet (pySet d k v) k = some v
  | [], k, v => by simp [pySet, pyGet]
  | (k', w) :: t, k, v => by
    by_cases h : k' = k
    · simp [pySet, pyGet, h]
    · simp only [pySet, if_neg h]
      simp only [pyGet, if_neg h]
      exact pyGet_pySet_self t k v

theorem pyGet_pySet_other :
    ∀ (d : List (Str × PyVal)) (k k' : Str) (v : PyVal), k ≠ k' →
      pyGet (pySet d k' v) k = pyGet d k
  | [], k, k', v, h => by
    simp only [pySet, pyGet]
    rw [if_neg fun e => h e.symm]
  | (k0, w) :: t, k, k', v, h => by
    by_cases h0 : k0 = k'
    · subst h0
      simp only [pySet, if_pos rfl, pyGet]
      rw [if_neg fun e => h e.symm, if_neg fun e => h e.symm]
    · simp only [pySet, if_neg h0, pyGet]
      by_cases hk : k0 = k
      · rw [if_pos hk, if_pos hk]
      · rw [if_neg hk, if_neg hk]
        exact pyGet_pySet_other t k k' v h

theorem foldl_pySet_lookup (F : Str → PyVal) :
    ∀ (fs : List Str) (d : List (Str × PyVal)) (k : Str),
      pyGet (fs.foldl (fun d f => pySet d f (F f)) d) k =
        if k ∈ fs then some (F k) else pyGet d k
  | [], d, k => by simp
  | f :: fs, d, k => by
    simp only [List.foldl]
    rw [foldl_pySet_lookup F fs (pySet d f (F f)) k]
    by_cases hfs : k ∈ fs
    · simp [hfs]
    · by_cases hf : k = f
      · subst hf
        simp [hfs, pyGet_pySet_self]
      · simp [hfs, hf, pyGet_pySet_other d k f (F f) hf]

/-- C4 (amended): for every leaf name under a subfields container, the
extractor reads the leaf through the unwrapping accessor, so a stored
one-key wrapper with a value key yields the wrapped value in the flat
result; top-level names in fields are read without unwrapping. -/
theorem extractor_unwraps_subfield_leaves (fields : List Str) (c : Str)
    (leaves : List Str) (f : Str) (paper : PyVal) (hf : f ∈ leaves) :
    pyGet (extract fields [(c, leaves)] false paper) f =
      some (getNestedFieldValue (getFieldValue paper c) f) ∧
    ∀ (es : List (Str × PyVal)) (V : PyVal),
      pyGet es f = some (PyVal.vDict [("value".data, V)]) →
      getNestedFieldValue (PyVal.vDict es) f = V := by
  constructor
  · show pyGet
      (leaves.foldl
        (fun d g => pySet d g (getNestedFieldValue (getFieldValue paper c) g))
        (fields.foldl (fun d g => pySet d g (getFieldValue paper g)) [])) f = _
    rw [foldl_pySet_lookup (fun g => getNestedFieldValue (getFieldValue paper c) g)
      leaves _ f]
    rw [if_pos hf]
  · intro es V h
    simp [getNestedFieldValue, h, pyGet]

/-- Witness for C4: the scenario record whose content title is the wrapper
holding T normalizes, under the content subfield specification, to the flat
title T. -/
theorem extractor_unwraps_subfield_leaves_witness :
    pyGet (extract ["forum".data] [("content".data, ["title".data])] false
        (PyVal.vDict [("content".data,
          PyVal.vDict [("title".data,
            PyVal.vDict [("value".data, PyVal.vStr "T".data)])])]))
      "title".data =
      some (getNestedFieldValue
        (getFieldValue
          (PyVal.vDict [("content".data,
            PyVal.vDict [("title".data,
              PyVal.vDict [("value".data, PyVal.vStr "T".data)])])])
          "content".data)
        "title".data) ∧
    getNestedFieldValue
        (getFieldValue
          (PyVal.vDict [("content".data,
            PyVal.vDict [("title".data,
              PyVal.vDict [("value".data, PyVal.vStr "T".data)])])])
          "content".data)
        "title".data = PyVal.vStr "T".data :=
  ⟨(extractor_unwraps_subfield_leaves ["forum".data] "content".data
      ["title".data] "title".data _ (by decide)).1, rfl⟩

/-- Counterexample to C4 as stated: a top-level field holding the one-key
wrapper for T is returned still wrapped, not unwrapped to T. -/
theorem extractor_top_level_no_unwrap_counterexample :
    pyGet (extract ["title".data] [] false
        (PyVal.vDict [("title".data,
          PyVal.vDict [("value".data, PyVal.vStr "T".data)])]))
      "title".data =
      some (PyVal.vDict [("value".data, PyVal.vStr "T".data)]) ∧
    PyVal.vDict [("value".data, PyVal.vStr "T".data)] ≠ PyVal.vStr "T".data :=
  ⟨rfl, fun h => PyVal.noConfusion h⟩

/-! ### The venue resolver's expansion step -/

theorem getAllSubgroups_mem (registry : List Str) (parent : Str)
    (years : List Str) (ex : Bool) :
    ∀ v ∈ getAllSubgroups registry parent years ex,
      v = parent ∨ years.any (fun y => containsSub y v) = true := by
  unfold getAllSubgroups
  suffices h : ∀ (reg acc : List Str),
      (∀ w ∈ acc, w = parent ∨ years.any (fun y => containsSub y w) = true) →
      ∀ v ∈ reg.foldl
        (fun acc venue =>
          if (joinSlash (pySplit "/".data parent).dropLast ++ ['/']).isPrefixOf venue
              && years.any (fun y => containsSub y venue)
              && !(excludePatterns.any fun e => containsSub e venue)
              && !(ex && containsSub "workshop".data (lowerStr venue))
              && !(acc.contains venue) then
            acc ++ [venue]
          else acc)
        acc, v = parent ∨ years.any (fun y => containsSub y v) = true by
    intro v hv
    refine h registry [parent] ?_ v hv
    intro w hw
    rw [List.mem_singleton] at hw
    exact Or.inl hw
  intro reg
  induction reg with
  | nil => intro acc hacc v hv; exact hacc v hv
  | cons r rs ih =>
    intro acc hacc v hv
    simp only [List.foldl_cons] at hv
    refine ih _ ?_ v hv
    intro w hw
    by_cases hc :
        ((joinSlash (pySplit "/".data parent).dropLast ++ ['/']).isPrefixOf r
          && years.any (fun y => containsSub y r)
          && !(excludePatterns.any fun e => containsSub e r)
          && !(ex && containsSub "workshop".data (lowerStr r))
          && !(acc.contains r)) = true
    · rw [if_pos hc] at hw
      rcases List.mem_append.mp hw with hw | hw
      · exact hacc w hw
      · rw [List.mem_singleton] at hw
        subst hw
        right
        simp only [Bool.and_eq_true] at hc
        exact hc.1.1.1.2
    · rw [if_neg hc] at hw
      exact hacc w hw

theorem venueInnerFold_mono (venue : Str) (subs : List Str) :
    ∀ (a : List Str) (v : Str), v ∈ a →
      v ∈ subs.foldl
        (fun a sv => if sv ≠ venue ∧ sv ∉ a then a ++ [sv] else a) a := by
  induction subs with
  | nil => intro a v hv; exact hv
  | cons s ss ih =>
    intro a v hv
    simp only [List.foldl_cons]
    refine ih _ v ?_
    by_cases hc : s ≠ venue ∧ s ∉ a
    · rw [if_pos hc]; exact List.mem_append_left _ hv
    · rw [if_neg hc]; exact hv

theorem venueInnerFold_invariant (P : Str → Prop) (venue : Str)
    (subs : List Str) (hsubs : ∀ s ∈ subs, s ≠ venue → P s) :
    ∀ (a : List Str), (∀ w ∈ a, P w) →
      ∀ v ∈ subs.foldl
        (fun a sv => if sv ≠ venue ∧ sv ∉ a then a ++ [sv] else a) a, P v := by
  induction subs with
  | nil => intro a ha v hv; exact ha v hv
  | cons s ss ih =>
    intro a ha v hv
    simp only [List.foldl_cons] at hv
    refine ih (fun s hs hne => hsubs s (List.mem_cons_of_mem _ hs) hne) _ ?_ v hv
    intro w hw
    by_cases hc : s ≠ venue ∧ s ∉ a
    · rw [if_pos hc] at hw
      rcases List.mem_append.mp hw with hw | hw
      · exact ha w hw
      · rw [List.mem_singleton] at hw
        subst hw
        exact hsubs w (List.mem_cons_self _ _) hc.1
    · rw [if_neg hc] at hw
      exact ha w hw

theorem expandVenues_outer_mono (registry years : List Str) (ex : Bool) :
    ∀ (fl acc : List Str) (v : Str), v ∈ acc →
      v ∈ fl.foldl
        (fun acc venue =>
          let acc' := acc ++ [venue]
          if shouldExpandVenue venue then
            (getAllSubgroups registry venue years ex).foldl
              (fun a sv => if sv ≠ venue ∧ sv ∉ a then a ++ [sv] else a) acc'
          else acc')
        acc := by
  intro fl
  induction fl with
  | nil => intro acc v hv; exact hv
  | cons r rs ih =>
    intro acc v hv
    simp only [List.foldl_cons]
    refine ih _ v ?_
    by_cases hc : shouldExpandVenue r
    · simp only [if_pos hc]
      exact venueInnerFold_mono r _ _ v (List.mem_append_left _ hv)
    · simp only [if_neg hc]
      exact List.mem_append_left _ hv

/-- C5: the expansion step of get_venues keeps every venue of its filtered
input (the umbrella venue is never dropped), and every venue it adds beyond
the input mentions at least one requested year as a substring. -/
theorem venue_expansion_keeps_input_adds_only_year_matched
    (registry filteredVenues years : List Str) (excludeWorkshops : Bool) :
    (∀ v ∈ filteredVenues,
      v ∈ expandVenues registry filteredVenues years excludeWorkshops) ∧
    (∀ v ∈ expandVenues registry filteredVenues years excludeWorkshops,
      v ∉ filteredVenues → years.any (fun y => containsSub y v) = true) := by
  constructor
  · unfold expandVenues
    suffices h : ∀ (fl acc : List Str), ∀ v ∈ fl,
        v ∈ fl.foldl
          (fun acc venue =>
            let acc' := acc ++ [venue]
            if shouldExpandVenue venue then
              (getAllSubgroups registry venue years excludeWorkshops).foldl
                (fun a sv => if sv ≠ venue ∧ sv ∉ a then a ++ [sv] else a) acc'
            else acc')
          acc from fun v hv => h filteredVenues [] v hv
    intro fl
    induction fl with
    | nil => intro acc v hv; exact absurd hv (List.not_mem_nil v)
    | cons r rs ih =>
      intro acc v hv
      simp only [List.foldl_cons]
      rcases List.mem_cons.mp hv with hv | hv
      · subst hv
        refine expandVenues_outer_mono registry years excludeWorkshops rs _ v ?_
        by_cases hc : shouldExpandVenue v
        · simp only [if_pos hc]
          exact venueInnerFold_mono v _ _ v
            (List.mem_append_right _ (List.mem_singleton_self v))
        · simp only [if_neg hc]
          exact List.mem_append_right _ (List.mem_singleton_self v)
      · exact ih _ v hv
  · unfold expandVenues
    suffices h : ∀ (fl acc : List Str),
        (∀ s ∈ fl, s ∈ filteredVenues) →
        (∀ w ∈ acc,
          w ∈ filteredVenues ∨ years.any (fun y => containsSub y w) = true) →
        ∀ v ∈ fl.foldl
          (fun acc venue =>
            let acc' := acc ++ [venue]
            if shouldExpandVenue venue then
              (getAllSubgroups registry venue years excludeWorkshops).foldl
                (fun a sv => if sv ≠ venue ∧ sv ∉ a then a ++ [sv] else a) acc'
            else acc')
          acc,
          v ∈ filteredVenues ∨ years.any (fun y => containsSub y v) = true by
      intro v hv hnin
      rcases h filteredVenues [] (fun s hs => hs) (fun w hw => absurd hw (List.not_mem_nil w)) v hv with
        hcase | hcase
      · exact absurd hcase hnin
      · exact hcase
    intro fl
    induction fl with
    | nil => intro acc _ hacc v hv; exact hacc v hv
    | cons r rs ih =>
      intro acc hfl hacc v hv
      simp only [List.foldl_cons] at hv
      refine ih _ (fun s hs => hfl s (List.mem_cons_of_mem _ hs)) ?_ v hv
      have hacc' : ∀ w ∈ acc ++ [r],
          w ∈ filteredVenues ∨ years.any (fun y => containsSub y w) = true := by
        intro w hw
        rcases List.mem_append.mp hw with hw | hw
        · exact hacc w hw
        · rw [List.mem_singleton] at hw
          subst hw
          exact Or.inl (hfl w (List.mem_cons_self _ _))
      by_cases hc : shouldExpandVenue r
      · simp only [if_pos hc]
        refine venueInnerFold_invariant _ r _ ?_ _ hacc'
        intro s hs hne
        rcases getAllSubgroups_mem registry r years excludeWorkshops s hs with
          hcase | hcase
        · exact absurd hcase hne
        · exact Or.inr hcase
      · simp only [if_neg hc]
        exact hacc'

/-- Witness for C5 on a one-umbrella filtered list: the umbrella conference
venue survives expansion and the track it pulls in from the registry matches
the requested year. -/
theorem venue_expansion_keeps_input_adds_only_year_matched_witness :
    "X.cc/2024/Conference".data ∈
      expandVenues ["X.cc/2024/Track/Main".data] ["X.cc/2024/Conference".data]
        ["2024".data] true ∧
    (["2024".data].any
      (fun y => containsSub y "X.cc/2024/Track/Main".data)) = true :=
  ⟨(venue_expansion_keeps_input_adds_only_year_matched
      ["X.cc/2024/Track/Main".data] ["X.cc/2024/Conference".data]
      ["2024".data] true).1 "X.cc/2024/Conference".data (by decide),
   (venue_expansion_keeps_input_adds_only_year_matched
      ["X.cc/2024/Track/Main".data] ["X.cc/2024/Conference".data]
      ["2024".data] true).2 "X.cc/2024/Track/Main".data (by decide) (by decide)⟩

/-! ### The whitespace normalizer of to_csv -/

theorem collapsePass_length_le : ∀ l : Str, (collapsePass l).length ≤ l.length := by
  intro l
  induction l using collapsePass.induct with
  | case1 => simp [collapsePass]
  | case2 c => simp [collapsePass]
  | case3 c d t hcd ih =>
    rw [collapsePass, if_pos hcd]
    simp only [List.length_cons]
    omega
  | case4 c d t hcd ih =>
    rw [collapsePass, if_neg hcd]
    simp only [List.length_cons] at ih ⊢
    omega

theorem collapsePass_length_lt :
    ∀ l : Str, hasDD l = true → (collapsePass l).length < l.length := by
  intro l
  induction l using collapsePass.induct with
  | case1 => intro h; simp [hasDD] at h
  | case2 c => intro h; simp [hasDD] at h
  | case3 c d t hcd ih =>
    intro _
    rw [collapsePass, if_pos hcd]
    have := collapsePass_length_le t
    simp only [List.length_cons]
    omega
  | case4 c d t hcd ih =>
    intro h
    rw [hasDD, if_neg hcd] at h
    rw [collapsePass, if_neg hcd]
    have := ih h
    simp only [List.length_cons] at this ⊢
    omega

theorem collapseGo_noDD :
    ∀ (f : Nat) (l : Str), l.length ≤ f → hasDD (collapseGo f l) = false := by
  intro f
  induction f with
  | zero =>
    intro l hl
    have : l = [] := List.eq_nil_of_length_eq_zero (by omega)
    subst this
    rfl
  | succ f ih =>
    intro l hl
    rw [collapseGo]
    by_cases h : hasDD l = true
    · rw [if_pos h]
      exact ih _ (by have := collapsePass_length_lt l h; omega)
    · rw [if_neg h]
      exact Bool.not_eq_true _ ▸ (eq_false_of_ne_true h)

theorem collapseAll_noDD (l : Str) : hasDD (collapseAll l) = false :=
  collapseGo_noDD l.length l le_rfl

theorem collapseGo_of_noDD (f : Nat) (l : Str) (h : hasDD l = false) :
    collapseGo f l = l := by
  cases f with
  | zero => rfl
  | succ f => rw [collapseGo, h]; simp

theorem collapseAll_of_noDD (l : Str) (h : hasDD l = false) :
    collapseAll l = l :=
  collapseGo_of_noDD l.length l h

theorem hasDD_decomp :
    ∀ l : Str, hasDD l = true → ∃ a b, l = a ++ ' ' :: ' ' :: b := by
  intro l
  induction l using hasDD.induct with
  | case1 => intro h; simp [hasDD] at h
  | case2 c => intro h; simp [hasDD] at h
  | case3 c d t hcd =>
    intro _
    exact ⟨[], t, by rw [hcd.1, hcd.2]; rfl⟩
  | case4 c d t hcd ih =>
    intro h
    rw [hasDD, if_neg hcd] at h
    obtain ⟨a, b, hab⟩ := ih h
    exact ⟨c :: a, b, by rw [List.cons_append, ← hab]⟩

theorem hasDD_of_append_dd (a b : Str) :
    hasDD (a ++ ' ' :: ' ' :: b) = true := by
  induction a with
  | nil => simp [hasDD]
  | cons x a' ih =>
    cases h : a' ++ ' ' :: ' ' :: b with
    | nil => exact absurd h (List.append_ne_nil_of_right_ne_nil a' (by simp))
    | cons d t =>
      rw [List.cons_append, h]
      rw [hasDD]
      by_cases hc : x = ' ' ∧ d = ' '
      · rw [if_pos hc]
      · rw [if_neg hc, ← h, ih]

theorem noDD_of_suffix {s l : Str} (hs : s <:+ l) (h : hasDD l = false) :
    hasDD s = false := by
  by_contra hdd
  obtain ⟨a, b, hab⟩ := hasDD_decomp s (Bool.not_eq_false _ ▸ hdd)
  obtain ⟨p, hp⟩ := hs
  rw [← hp, hab] at h
  rw [show p ++ (a ++ ' ' :: ' ' :: b) = (p ++ a) ++ ' ' :: ' ' :: b by simp] at h
  rw [hasDD_of_append_dd] at h
  exact Bool.true_eq_false ▸ h

theorem noDD_reverse {l : Str} (h : hasDD l = false) :
    hasDD l.reverse = false := by
  by_contra hdd
  obtain ⟨a, b, hab⟩ := hasDD_decomp l.reverse (Bool.not_eq_false _ ▸ hdd)
  have : l = b.reverse ++ ' ' :: ' ' :: a.reverse := by
    have := congrArg List.reverse hab
    rw [List.reverse_reverse] at this
    rw [this]
    simp
  rw [this, hasDD_of_append_dd] at h
  exact Bool.true_eq_false ▸ h

theorem mem_collapsePass : ∀ (l : Str) (c : Char), c ∈ collapsePass l → c ∈ l := by
  intro l
  induction l using collapsePass.induct with
  | case1 => intro c hc; simp [collapsePass] at hc
  | case2 x => intro c hc; simpa [collapsePass] using hc
  | case3 x d t hcd ih =>
    intro c hc
    rw [collapsePass, if_pos hcd] at hc
    rcases List.mem_cons.mp hc with hc | hc
    · subst hc; rw [hcd.1]; exact List.mem_cons_self _ _
    · exact List.mem_cons_of_mem _ (List.mem_cons_of_mem _ (ih c hc))
  | case4 x d t hcd ih =>
    intro c hc
    rw [collapsePass, if_neg hcd] at hc
    rcases List.mem_cons.mp hc with hc | hc
    · subst hc; exact List.mem_cons_self _ _
    · exact List.mem_cons_of_mem _ (ih c hc)

theorem mem_collapseGo :
    ∀ (f : Nat) (l : Str) (c : Char), c ∈ collapseGo f l → c ∈ l := by
  intro f
  induction f with
  | zero => intro l c hc; exact hc
  | succ f ih =>
    intro l c hc
    rw [collapseGo] at hc
    by_cases h : hasDD l = true
    · rw [if_pos h] at hc
      exact mem_collapsePass l c (ih _ c hc)
    · rwa [if_neg h] at hc

theorem mem_pyStrip (l : Str) (c : Char) (hc : c ∈ pyStrip l) : c ∈ l := by
  unfold pyStrip at hc
  rw [List.mem_reverse] at hc
  have h1 := (List.dropWhile_suffix isPyWs
    (l := (l.dropWhile isPyWs).reverse)).sublist.mem hc
  rw [List.mem_reverse] at h1
  exact (List.dropWhile_suffix isPyWs (l := l)).sublist.mem h1

theorem dropWhile_dropWhile_self (p : Char → Bool) (l : Str) :
    (l.dropWhile p).dropWhile p = l.dropWhile p := by
  cases h : l.dropWhile p with
  | nil => rfl
  | cons x t =>
    have hx : p x = false := by
      have := List.head_dropWhile_not p l (show l.dropWhile p ≠ [] by simp [h])
      simpa [h] using this
    rw [List.dropWhile_cons, hx]
    simp

theorem pyStrip_prefix_core (l : Str) :
    pyStrip l <+: l.dropWhile isPyWs := by
  unfold pyStrip
  have hsuf : (l.dropWhile isPyWs).reverse.dropWhile isPyWs <:+
      (l.dropWhile isPyWs).reverse := List.dropWhile_suffix isPyWs
  have := List.reverse_prefix.mpr hsuf
  rwa [List.reverse_reverse] at this

theorem pyStrip_idem (l : Str) : pyStrip (pyStrip l) = pyStrip l := by
  have hdrop : (pyStrip l).dropWhile isPyWs = pyStrip l := by
    cases hr : pyStrip l with
    | nil => rfl
    | cons x t =>
      obtain ⟨p, hp⟩ := pyStrip_prefix_core l
      have hm : l.dropWhile isPyWs = x :: (t ++ p) := by
        rw [← hp, hr]; simp
      have hx : isPyWs x = false := by
        have := List.head_dropWhile_not isPyWs l
          (show l.dropWhile isPyWs ≠ [] by simp [hm])
        simpa [hm] using this
      rw [List.dropWhile_cons, hx]
      simp

  show (((pyStrip l).dropWhile isPyWs).reverse.dropWhile isPyWs).reverse = pyStrip l
  rw [hdrop]
  show ((((l.dropWhile isPyWs).reverse.dropWhile isPyWs).reverse).reverse.dropWhile
    isPyWs).reverse = pyStrip l
  rw [List.reverse_reverse, dropWhile_dropWhile_self]
  rfl

theorem pyStrip_noDD {l : Str} (h : hasDD l = false) :
    hasDD (pyStrip l) = false := by
  have h1 : hasDD (l.dropWhile isPyWs) = false :=
    noDD_of_suffix (List.dropWhile_suffix isPyWs) h
  have h2 : hasDD (l.dropWhile isPyWs).reverse = false := noDD_reverse h1
  have h3 : hasDD ((l.dropWhile isPyWs).reverse.dropWhile isPyWs) = false :=
    noDD_of_suffix (List.dropWhile_suffix isPyWs) h2
  exact noDD_reverse h3

theorem nl_not_mem_clean (l : Str) :
    '\n' ∉ cleanText l ∧ '\r' ∉ cleanText l := by
  have hmap : ∀ c ∈ ((l.map fun c => if c = '\n' then ' ' else c).map
      fun c => if c = '\r' then ' ' else c), c ≠ '\n' ∧ c ≠ '\r' := by
    intro c hc
    rw [List.mem_map] at hc
    obtain ⟨y, hy, hyc⟩ := hc
    rw [List.mem_map] at hy
    obtain ⟨x, _, hxy⟩ := hy
    subst hyc
    subst hxy
    constructor <;> split_ifs <;> simp_all
  constructor
  · intro hmem
    have h1 := mem_pyStrip _ _ hmem
    have h2 := mem_collapseGo _ _ _ h1
    exact (hmap _ h2).1 rfl
  · intro hmem
    have h1 := mem_pyStrip _ _ hmem
    have h2 := mem_collapseGo _ _ _ h1
    exact (hmap _ h2).2 rfl

theorem map_eq_self_of_no_char (ch : Char) (l : Str) (h : ∀ c ∈ l, c ≠ ch) :
    (l.map fun c => if c = ch then ' ' else c) = l := by
  have : ∀ c ∈ l, (if c = ch then ' ' else c) = c := by
    intro c hc
    rw [if_neg (h c hc)]
  rw [List.map_congr_left this]
  exact List.map_id' l

theorem cleanText_idem (l : Str) : cleanText (cleanText l) = cleanText l := by
  have hnl := (nl_not_mem_clean l).1
  have hnr := (nl_not_mem_clean l).2
  have hnodd : hasDD (cleanText l) = false := by
    unfold cleanText
    exact pyStrip_noDD (collapseAll_noDD _)
  show pyStrip (collapseAll (((cleanText l).map fun c =>
    if c = '\n' then ' ' else c).map fun c => if c = '\r' then ' ' else c)) = _
  rw [map_eq_self_of_no_char '\n' _ (fun c hc he => hnl (he ▸ hc))]
  rw [map_eq_self_of_no_char '\r' _ (fun c hc he => hnr (he ▸ hc))]
  rw [collapseAll_of_noDD _ hnodd]
  show pyStrip (pyStrip (collapseAll _)) = _
  rw [pyStrip_idem]
  rfl

/-! ### The stable sort of to_csv -/

theorem strLe_total : ∀ a b : Str, strLe a b = true ∨ strLe b a = true
  | [], _ => Or.inl rfl
  | _ :: _, [] => Or.inr rfl
  | a :: as, b :: bs => by
    by_cases hab : a < b
    · left; rw [strLe, if_pos hab]
    · by_cases hba : b < a
      · right; rw [strLe, if_pos hba]
      · have hEq : a = b := le_antisymm (not_lt.mp hba) (not_lt.mp hab)
        subst hEq
        rcases strLe_total as bs with h | h
        · left; rw [strLe, if_neg hab, if_pos rfl]; exact h
        · right; rw [strLe, if_neg hab, if_pos rfl]; exact h

theorem strLe_antisymm :
    ∀ a b : Str, strLe a b = true → strLe b a = true → a = b
  | [], [], _, _ => rfl
  | [], _ :: _, _, h => by simp [strLe] at h
  | _ :: _, [], h, _ => by simp [strLe] at h
  | a :: as, b :: bs, hab, hba => by
    rw [strLe] at hab hba
    by_cases h1 : a < b
    · rw [if_pos h1] at hab
      have h2 : ¬b < a := asymm h1
      rw [if_neg h2, if_neg (ne_of_gt h1)] at hba
      exact absurd hba (by simp)
    · rw [if_neg h1] at hab
      by_cases h2 : a = b
      · subst h2
        rw [if_pos rfl] at hab
        rw [if_neg h1, if_pos rfl] at hba
        rw [strLe_antisymm as bs hab hba]
      · rw [if_neg h2] at hab
        exact absurd hab (by simp)

theorem strLe_trans :
    ∀ a b c : Str, strLe a b = true → strLe b c = true → strLe a c = true
  | [], _, _, _, _ => rfl
  | _ :: _, [], _, h, _ => by simp [strLe] at h
  | _ :: _, _ :: _, [], _, h => by simp [strLe] at h
  | a :: as, b :: bs, c :: cs, hab, hbc => by
    rw [strLe] at hab hbc ⊢
    by_cases h1 : a < b
    · by_cases h2 : b < c
      · rw [if_pos (lt_trans h1 h2)]
      · rw [if_neg h2] at hbc
        by_cases h3 : b = c
        · subst h3; rw [if_pos h1]
        · rw [if_neg h3] at hbc; exact absurd hbc (by simp)
    · rw [if_neg h1] at hab
      by_cases h4 : a = b
      · subst h4
        rw [if_pos rfl] at hab
        by_cases h2 : a < c
        · rw [if_pos h2]
        · rw [if_neg h2] at hbc ⊢
          by_cases h3 : a = c
          · rw [if_pos h3] at hbc ⊢
            exact strLe_trans as bs cs hab hbc
          · rw [if_neg h3] at hbc; exact absurd hbc (by simp)
      · rw [if_neg h4] at hab; exact absurd hab (by simp)

theorem keyLe_total (p q : Nat × Str) : keyLe p q = true ∨ keyLe q p = true := by
  unfold keyLe
  by_cases h1 : p.1 < q.1
  · left; simp [h1]
  · by_cases h2 : q.1 < p.1
    · right; simp [h2]
    · have hEq : p.1 = q.1 := by omega
      rcases strLe_total p.2 q.2 with h | h
      · left; simp [hEq, h]
      · right; simp [hEq.symm, h]

theorem keyLe_antisymm {p q : Nat × Str} (hpq : keyLe p q = true)
    (hqp : keyLe q p = true) : p = q := by
  unfold keyLe at hpq hqp
  simp only [Bool.or_eq_true, decide_eq_true_eq, Bool.and_eq_true] at hpq hqp
  rcases hpq with h1 | ⟨h1, h1'⟩
  · rcases hqp with h2 | ⟨h2, _⟩
    · omega
    · omega
  · rcases hqp with h2 | ⟨h2, h2'⟩
    · omega
    · have := strLe_antisymm _ _ h1' h2'
      exact Prod.ext h1 this

theorem keyLe_trans {p q r : Nat × Str} (hpq : keyLe p q = true)
    (hqr : keyLe q r = true) : keyLe p r = true := by
  unfold keyLe at hpq hqr ⊢
  simp only [Bool.or_eq_true, decide_eq_true_eq, Bool.and_eq_true] at hpq hqr ⊢
  rcases hpq with h1 | ⟨h1, h1'⟩
  · rcases hqr with h2 | ⟨h2, _⟩
    · left; omega
    · left; omega
  · rcases hqr with h2 | ⟨h2, h2'⟩
    · left; omega
    · right; exact ⟨h1.trans h2, strLe_trans _ _ _ h1' h2'⟩

theorem keyLe_refl (p : Nat × Str) : keyLe p p = true := by
  rcases keyLe_total p p with h | h <;> exact h

theorem mem_insertSorted {α : Type} (key : α → Nat × Str) (x : α) :
    ∀ (l : List α) (y : α), y ∈ insertSorted key x l ↔ y = x ∨ y ∈ l
  | [], y => by simp [insertSorted]
  | h :: t, y => by
    rw [insertSorted]
    by_cases hc : keyLe (key x) (key h) = true
    · rw [if_pos hc]
      simp
    · rw [if_neg hc]
      rw [List.mem_cons, List.mem_cons, mem_insertSorted key x t y]
      tauto

theorem insertSorted_pairwise {α : Type} (key : α → Nat × Str) (x : α) :
    ∀ l : List α,
      l.Pairwise (fun a b => keyLe (key a) (key b) = true) →
      (insertSorted key x l).Pairwise (fun a b => keyLe (key a) (key b) = true)
  | [], _ => List.pairwise_singleton _ x
  | h :: t, hp => by
    rw [insertSorted]
    rcases List.pairwise_cons.mp hp with ⟨hht, hpt⟩
    by_cases hc : keyLe (key x) (key h) = true
    · rw [if_pos hc]
      refine List.pairwise_cons.mpr ⟨?_, hp⟩
      intro b hb
      rcases List.mem_cons.mp hb with hb | hb
      · subst hb; exact hc
      · exact keyLe_trans hc (hht b hb)
    · rw [if_neg hc]
      refine List.pairwise_cons.mpr ⟨?_, insertSorted_pairwise key x t hpt⟩
      intro b hb
      rcases (mem_insertSorted key x t b).mp hb with hb | hb
      · rw [hb]
        rcases keyLe_total (key x) (key h) with h1 | h1
        · exact absurd h1 hc
        · exact h1
      · exact hht b hb

theorem isortBy_pairwise {α : Type} (key : α → Nat × Str) :
    ∀ l : List α,
      (isortBy key l).Pairwise (fun a b => keyLe (key a) (key b) = true)
  | [] => List.Pairwise.nil
  | x :: xs => insertSorted_pairwise key x _ (isortBy_pairwise key xs)

theorem insertSorted_perm {α : Type} (key : α → Nat × Str) (x : α) :
    ∀ l : List α, (insertSorted key x l).Perm (x :: l)
  | [] => List.Perm.refl _
  | h :: t => by
    rw [insertSorted]
    by_cases hc : keyLe (key x) (key h) = true
    · rw [if_pos hc]
    · rw [if_neg hc]
      exact ((insertSorted_perm key x t).cons h).trans (List.Perm.swap x h t)

theorem isortBy_perm {α : Type} (key : α → Nat × Str) :
    ∀ l : List α, (isortBy key l).Perm l
  | [] => List.Perm.refl _
  | x :: xs =>
    (insertSorted_perm key x (isortBy key xs)).trans
      ((isortBy_perm key xs).cons x)

theorem filter_insertSorted {α : Type} (key : α → Nat × Str) (x : α)
    (k : Nat × Str) :
    ∀ l : List α,
      (insertSorted key x l).filter (fun a => decide (key a = k)) =
        if key x = k then x :: l.filter (fun a => decide (key a = k))
        else l.filter (fun a => decide (key a = k))
  | [] => by
    by_cases hk : key x = k
    · rw [if_pos hk]; simp [insertSorted, hk]
    · rw [if_neg hk]; simp [insertSorted, hk]
  | h :: t => by
    rw [insertSorted]
    by_cases hc : keyLe (key x) (key h) = true
    · rw [if_pos hc]
      by_cases hk : key x = k
      · rw [if_pos hk, List.filter_cons, if_pos (by simp [hk])]
      · rw [if_neg hk, List.filter_cons, if_neg (by simp [hk])]
    · rw [if_neg hc]
      have hxh : key h ≠ key x := fun hEq => hc (by rw [hEq]; exact keyLe_refl _)
      rw [List.filter_cons, List.filter_cons, filter_insertSorted key x k t]
      by_cases hk : key x = k
      · have hhk : ¬key h = k := fun hEq => hxh (by rw [hEq, hk])
        simp [hk, hhk]
      · simp [hk]

theorem isortBy_filter_class {α : Type} (key : α → Nat × Str) (k : Nat × Str) :
    ∀ l : List α,
      (isortBy key l).filter (fun a => decide (key a = k)) =
        l.filter (fun a => decide (key a = k))
  | [] => rfl
  | x :: xs => by
    rw [isortBy, filter_insertSorted key x k (isortBy key xs),
      isortBy_filter_class key k xs, List.filter_cons]
    by_cases hk : key x = k
    · rw [if_pos hk, if_pos (by simp [hk])]
    · rw [if_neg hk, if_neg (by simp [hk])]

theorem filter_key_nonempty_transfer {α β : Type} (key : α → Nat × Str)
    (g : α → β) (l₁ l₂ : List α)
    (hf : ∀ k, (l₁.filter (fun a => decide (key a = k))).map g =
               (l₂.filter (fun a => decide (key a = k))).map g)
    (u : α) (hu : u ∈ l₁) : ∃ x ∈ l₂, key x = key u := by
  have h1 : u ∈ l₁.filter (fun a => decide (key a = key u)) :=
    List.mem_filter.mpr ⟨hu, by simp⟩
  have hne : l₂.filter (fun a => decide (key a = key u)) ≠ [] := by
    intro hEq
    have hthis := hf (key u)
    rw [hEq] at hthis
    simp only [List.map_nil] at hthis
    rw [List.map_eq_nil_iff] at hthis
    rw [hthis] at h1
    exact absurd h1 (List.not_mem_nil u)
  rcases List.exists_mem_of_ne_nil _ hne with ⟨x, hx⟩
  exact ⟨x, List.mem_of_mem_filter hx, by simpa using List.of_mem_filter hx⟩

theorem sorted_map_eq {α β : Type} (key : α → Nat × Str) (g : α → β) :
    ∀ (l₁ l₂ : List α),
      l₁.Pairwise (fun a b => keyLe (key a) (key b) = true) →
      l₂.Pairwise (fun a b => keyLe (key a) (key b) = true) →
      (∀ k, (l₁.filter (fun a => decide (key a = k))).map g =
            (l₂.filter (fun a => decide (key a = k))).map g) →
      l₁.map g = l₂.map g
  | [], [], _, _, _ => rfl
  | [], b :: t₂, _, _, hf => by
    have := hf (key b)
    rw [List.filter_cons, if_pos (by simp)] at this
    simp at this
  | a :: t₁, [], _, _, hf => by
    have := hf (key a)
    rw [List.filter_cons, if_pos (by simp)] at this
    simp at this
  | a :: t₁, b :: t₂, hp₁, hp₂, hf => by
    rcases List.pairwise_cons.mp hp₁ with ⟨hat, hpt₁⟩
    rcases List.pairwise_cons.mp hp₂ with ⟨hbt, hpt₂⟩
    have hmin₁ : ∀ x ∈ a :: t₁, keyLe (key a) (key x) = true := by
      intro x hx
      rcases List.mem_cons.mp hx with hx | hx
      · subst hx; exact keyLe_refl _
      · exact hat x hx
    have hmin₂ : ∀ x ∈ b :: t₂, keyLe (key b) (key x) = true := by
      intro x hx
      rcases List.mem_cons.mp hx with hx | hx
      · subst hx; exact keyLe_refl _
      · exact hbt x hx
    have hkey : key a = key b := by
      have h1 : ∃ x ∈ b :: t₂, key x = key a :=
        filter_key_nonempty_transfer key g _ _ hf a (List.mem_cons_self a t₁)
      have h2 : ∃ x ∈ a :: t₁, key x = key b :=
        filter_key_nonempty_transfer key g _ _ (fun k => (hf k).symm) b
          (List.mem_cons_self b t₂)
      obtain ⟨x, hx, hxa⟩ := h1
      obtain ⟨y, hy, hyb⟩ := h2
      have hba : keyLe (key b) (key a) = true := by
        rw [← hxa]; exact hmin₂ x hx
      have hab : keyLe (key a) (key b) = true := by
        rw [← hyb]; exact hmin₁ y hy
      exact keyLe_antisymm hab hba
    have hga : g a = g b := by
      have := hf (key a)
      rw [List.filter_cons, if_pos (by simp), List.filter_cons,
        if_pos (by simp [hkey])] at this
      simpa using congrArg List.head? this
    have hftail : ∀ k, (t₁.filter (fun x => decide (key x = k))).map g =
        (t₂.filter (fun x => decide (key x = k))).map g := by
      intro k
      have := hf k
      by_cases hk : key a = k
      · rw [List.filter_cons, if_pos (by simp [hk]), List.filter_cons,
          if_pos (by simp [hkey ▸ hk])] at this
        simp only [List.map_cons] at this
        exact (List.cons.injEq _ _ _ _).mp this |>.2
      · rw [List.filter_cons, if_neg (by simp [hk]), List.filter_cons,
          if_neg (by simp [hkey ▸ hk])] at this
        exact this
    simp only [List.map_cons]
    rw [hga, sorted_map_eq key g t₁ t₂ hpt₁ hpt₂ hftail]

/-! ### The dedup loop of to_csv -/

theorem dedupRows_append :
    ∀ (a b : List CRow) (seen : List Str),
      dedupRows seen (a ++ b) = dedupRows seen a ++ dedupRows (seenAfter seen a) b
  | [], b, seen => rfl
  | c :: t, b, seen => by
    by_cases hc : uniqueKey c ∈ seen
    · rw [List.cons_append, dedupRows, if_pos hc, dedupRows, if_pos hc,
        seenAfter, if_pos hc]
      exact dedupRows_append t b seen
    · rw [List.cons_append, dedupRows, if_neg hc, dedupRows, if_neg hc,
        seenAfter, if_neg hc, List.cons_append]
      rw [dedupRows_append t b (uniqueKey c :: seen)]

theorem seenAfter_mem :
    ∀ (a : List CRow) (seen : List Str) (k : Str),
      k ∈ seenAfter seen a ↔ k ∈ seen ∨ k ∈ a.map uniqueKey
  | [], seen, k => by simp [seenAfter]
  | c :: t, seen, k => by
    by_cases hc : uniqueKey c ∈ seen
    · rw [seenAfter, if_pos hc, seenAfter_mem t seen k]
      simp only [List.map_cons, List.mem_cons]
      constructor
      · rintro (h | h)
        · exact Or.inl h
        · exact Or.inr (Or.inr h)
      · rintro (h | h | h)
        · exact Or.inl h
        · exact Or.inl (h ▸ hc)
        · exact Or.inr h
    · rw [seenAfter, if_neg hc, seenAfter_mem t (uniqueKey c :: seen) k]
      simp only [List.mem_cons, List.map_cons]
      tauto

theorem dedupRows_congr_seen :
    ∀ (l : List CRow) (s₁ s₂ : List Str),
      (∀ k, k ∈ s₁ ↔ k ∈ s₂) → dedupRows s₁ l = dedupRows s₂ l
  | [], _, _, _ => rfl
  | c :: t, s₁, s₂, h => by
    by_cases hc : uniqueKey c ∈ s₁
    · rw [dedupRows, if_pos hc, dedupRows, if_pos ((h _).mp hc)]
      exact dedupRows_congr_seen t s₁ s₂ h
    · rw [dedupRows, if_neg hc, dedupRows, if_neg (fun hx => hc ((h _).mpr hx))]
      rw [dedupRows_congr_seen t (uniqueKey c :: s₁) (uniqueKey c :: s₂)
        (fun k => by simp only [List.mem_cons]; rw [h k])]

theorem dedupRows_mem :
    ∀ (l : List CRow) (seen : List Str) (c : CRow),
      c ∈ dedupRows seen l → c ∈ l ∧ uniqueKey c ∉ seen
  | [], seen, c, h => absurd h (List.not_mem_nil c)
  | x :: t, seen, c, h => by
    by_cases hx : uniqueKey x ∈ seen
    · rw [dedupRows, if_pos hx] at h
      have := dedupRows_mem t seen c h
      exact ⟨List.mem_cons_of_mem _ this.1, this.2⟩
    · rw [dedupRows, if_neg hx] at h
      rcases List.mem_cons.mp h with h | h
      · subst h
        exact ⟨List.mem_cons_self _ _, hx⟩
      · have := dedupRows_mem t (uniqueKey x :: seen) c h
        exact ⟨List.mem_cons_of_mem _ this.1,
          fun hm => this.2 (List.mem_cons_of_mem _ hm)⟩

theorem dedupRows_keys_nodup :
    ∀ (l : List CRow) (seen : List Str),
      ((dedupRows seen l).map uniqueKey).Nodup
  | [], _ => List.nodup_nil
  | x :: t, seen => by
    by_cases hx : uniqueKey x ∈ seen
    · rw [dedupRows, if_pos hx]
      exact dedupRows_keys_nodup t seen
    · rw [dedupRows, if_neg hx, List.map_cons, List.nodup_cons]
      refine ⟨?_, dedupRows_keys_nodup t (uniqueKey x :: seen)⟩
      intro hmem
      rw [List.mem_map] at hmem
      obtain ⟨c, hc, hck⟩ := hmem
      have := (dedupRows_mem t (uniqueKey x :: seen) c hc).2
      exact this (hck ▸ List.mem_cons_self _ _)

theorem dedupRows_of_nodup_keys :
    ∀ (l : List CRow) (seen : List Str), (l.map uniqueKey).Nodup →
      dedupRows seen l = l.filter (fun c => !(decide (uniqueKey c ∈ seen)))
  | [], _, _ => rfl
  | x :: t, seen, hnd => by
    rw [List.map_cons, List.nodup_cons] at hnd
    by_cases hx : uniqueKey x ∈ seen
    · rw [dedupRows, if_pos hx, List.filter_cons, if_neg (by simp [hx])]
      exact dedupRows_of_nodup_keys t seen hnd.2
    · rw [dedupRows, if_neg hx, List.filter_cons, if_pos (by simp [hx])]
      rw [dedupRows_of_nodup_keys t (uniqueKey x :: seen) hnd.2]
      refine congrArg _ (List.filter_congr ?_)
      intro c hc
      have hne : uniqueKey c ≠ uniqueKey x := by
        intro hEq
        exact hnd.1 (hEq ▸ List.mem_map_of_mem uniqueKey hc)
      have hiff : uniqueKey c ∈ uniqueKey x :: seen ↔ uniqueKey c ∈ seen := by
        rw [List.mem_cons]
        exact ⟨fun h => h.resolve_left hne, Or.inr⟩
      rw [decide_eq_decide.mpr hiff]

/-! ### Row cleaning, the write-reread round trip, and key stability -/

theorem CleanCRow_cleanRow (r : RawRow) : CleanCRow (cleanRow r) := by
  intro k s h hk
  unfold cleanRow at h
  cases hr : r k with
  | vAbsent => rw [hr] at h; exact absurd h (by simp)
  | vNone =>
    rw [hr] at h
    have h' : some (if k ∈ textFieldsToClean then cleanText (cleanValue PyRaw.vNone)
        else cleanValue PyRaw.vNone) = some s := h
    rw [if_pos hk] at h'
    have hs : s = cleanText (cleanValue PyRaw.vNone) := (Option.some.inj h').symm
    rw [hs, cleanText_idem]
  | vStr v =>
    rw [hr] at h
    have h' : some (if k ∈ textFieldsToClean then cleanText (cleanValue (PyRaw.vStr v))
        else cleanValue (PyRaw.vStr v)) = some s := h
    rw [if_pos hk] at h'
    have hs : s = cleanText (cleanValue (PyRaw.vStr v)) := (Option.some.inj h').symm
    rw [hs, cleanText_idem]
  | vOther v =>
    rw [hr] at h
    have h' : some (if k ∈ textFieldsToClean then cleanText (cleanValue (PyRaw.vOther v))
        else cleanValue (PyRaw.vOther v)) = some s := h
    rw [if_pos hk] at h'
    have hs : s = cleanText (cleanValue (PyRaw.vOther v)) := (Option.some.inj h').symm
    rw [hs, cleanText_idem]

theorem CleanCRow_setId (v : Str) (c : CRow) (h : CleanCRow c) :
    CleanCRow (setId v c) := by
  intro k s hks hk
  have hkid : k ≠ "id".data := by
    intro hEq
    subst hEq
    exact absurd hk (by decide)
  rw [setId, if_neg hkid] at hks
  exact h k s hks hk

theorem assocLookup_zip_map :
    ∀ (fs : List Str) (g : Str → Str) (k : Str),
      assocLookup (fs.zip (fs.map g)) k = if k ∈ fs then some (g k) else none
  | [], g, k => by simp [assocLookup]
  | f :: fs, g, k => by
    show (if f = k then some (g f) else assocLookup (fs.zip (fs.map g)) k) =
      if k ∈ f :: fs then some (g k) else none
    by_cases hk : f = k
    · subst hk
      rw [if_pos rfl, if_pos (List.mem_cons_self f fs)]
    · rw [if_neg hk, assocLookup_zip_map fs g k]
      by_cases hmem : k ∈ fs
      · rw [if_pos hmem, if_pos (List.mem_cons_of_mem f hmem)]
      · rw [if_neg hmem, if_neg (by
          rw [List.mem_cons]
          rintro (h | h)
          · exact hk h.symm
          · exact hmem h)]

theorem parseRow_writeRow (c : CRow) (k : Str) :
    parseRow (writeRow c) k =
      if k ∈ defaultCsvFields then PyRaw.vStr ((c k).getD []) else PyRaw.vAbsent := by
  unfold parseRow writeRow
  rw [assocLookup_zip_map defaultCsvFields (fun f => (c f).getD []) k]
  by_cases hk : k ∈ defaultCsvFields
  · rw [if_pos hk, if_pos hk]
  · rw [if_neg hk, if_neg hk]

theorem cleanRow_parseRow_writeRow (c : CRow) (h : CleanCRow c) :
    cleanRow (parseRow (writeRow c)) = restrictR c := by
  funext k
  unfold cleanRow restrictR
  rw [parseRow_writeRow c k]
  by_cases hk : k ∈ defaultCsvFields
  · rw [if_pos hk, if_pos hk]
    show some (if k ∈ textFieldsToClean then cleanText ((c k).getD [])
      else (c k).getD []) = some ((c k).getD [])
    by_cases ht : k ∈ textFieldsToClean
    · rw [if_pos ht]
      cases hc : c k with
      | none => rfl
      | some s =>
        simp only [Option.getD_some]
        rw [h k s hc ht]
    · rw [if_neg ht]
  · rw [if_neg hk, if_neg hk]

theorem uniqueKey_restrictR (c : CRow) : uniqueKey (restrictR c) = uniqueKey c := rfl

theorem uniqueKey_setId (v : Str) (c : CRow) :
    uniqueKey (setId v c) = uniqueKey c := rfl

theorem sortKey_setId (v : Str) (c : CRow) : sortKey (setId v c) = sortKey c := rfl

theorem sortKey_restrictR_setId (v : Str) (c : CRow) :
    sortKey (restrictR (setId v c)) = sortKey (restrictR c) := rfl

theorem sortKey_restrictR_of_some (c : CRow)
    (hp : (c "presentation_type".data).isSome = true) :
    sortKey (restrictR c) = sortKey c := by
  obtain ⟨v, hv⟩ := Option.isSome_iff_exists.mp hp
  unfold sortKey
  have h1 : restrictR c "presentation_type".data = some v := by
    show (if "presentation_type".data ∈ defaultCsvFields then
      some ((c "presentation_type".data).getD []) else none) = some v
    rw [if_pos (by decide), hv]
    rfl
  have h2 : restrictR c "title".data = some ((c "title".data).getD []) := by
    show (if "title".data ∈ defaultCsvFields then
      some ((c "title".data).getD []) else none) = _
    rw [if_pos (by decide)]
  rw [h1, hv, h2]
  simp

theorem writeRow_restrictR (c : CRow) : writeRow (restrictR c) = writeRow c := rfl

theorem writeRow_blankId_restrictR (c : CRow) :
    writeRow (blankIdRow (restrictR c)) = writeRow (blankIdRow c) := rfl

theorem writeRow_blankId_setId (v : Str) (c : CRow) :
    writeRow (blankIdRow (setId v c)) = writeRow (blankIdRow c) := rfl

theorem writeRow_setId_eq (v : Str) (c : CRow) :
    writeRow (setId v c) = v :: (writeRow (blankIdRow c)).tail := rfl

/-! ### The id regeneration loop -/

theorem mem_assignIdsGo (slug : Str) :
    ∀ (l : List CRow) (n : Nat) (e : CRow), e ∈ assignIdsGo slug n l →
      ∃ a ∈ l, ∃ v, e = setId v a
  | [], n, e, h => absurd h (List.not_mem_nil e)
  | c :: t, n, e, h => by
    rw [assignIdsGo] at h
    rcases List.mem_cons.mp h with h | h
    · exact ⟨c, List.mem_cons_self _ _, _, h⟩
    · obtain ⟨a, ha, v, hv⟩ := mem_assignIdsGo slug t (n + 1) e h
      exact ⟨a, List.mem_cons_of_mem _ ha, v, hv⟩

theorem map_uniqueKey_assignIdsGo (slug : Str) :
    ∀ (l : List CRow) (n : Nat),
      (assignIdsGo slug n l).map uniqueKey = l.map uniqueKey
  | [], _ => rfl
  | c :: t, n => by
    rw [assignIdsGo, List.map_cons, List.map_cons, uniqueKey_setId,
      map_uniqueKey_assignIdsGo slug t (n + 1)]

theorem map_filter_assignIdsGo {β : Type} (slug : Str) (p : CRow → Bool)
    (τ : CRow → β) (hp : ∀ v c, p (setId v c) = p c)
    (hτ : ∀ v c, τ (setId v c) = τ c) :
    ∀ (l : List CRow) (n : Nat),
      ((assignIdsGo slug n l).filter p).map τ = (l.filter p).map τ
  | [], _ => rfl
  | c :: t, n => by
    rw [assignIdsGo, List.filter_cons, List.filter_cons, hp]
    by_cases hc : p c = true
    · rw [if_pos hc, if_pos hc, List.map_cons, List.map_cons, hτ,
        map_filter_assignIdsGo slug p τ hp hτ t (n + 1)]
    · rw [if_neg hc, if_neg hc, map_filter_assignIdsGo slug p τ hp hτ t (n + 1)]

theorem assign_write_congr (slug : Str) :
    ∀ (l₁ l₂ : List CRow),
      l₁.map (fun c => writeRow (blankIdRow c)) =
        l₂.map (fun c => writeRow (blankIdRow c)) →
      ∀ n, (assignIdsGo slug n l₁).map writeRow = (assignIdsGo slug n l₂).map writeRow
  | [], [], _, _ => rfl
  | [], b :: t₂, h, _ => by simp at h
  | a :: t₁, [], h, _ => by simp at h
  | a :: t₁, b :: t₂, h, n => by
    simp only [List.map_cons] at h
    rcases (List.cons.injEq _ _ _ _).mp h with ⟨hhead, htail⟩
    rw [assignIdsGo, assignIdsGo, List.map_cons, List.map_cons,
      writeRow_setId_eq, writeRow_setId_eq, hhead,
      assign_write_congr slug t₁ t₂ htail (n + 1)]

/-! ### The rows of a written file are well-formed on re-reading -/

theorem RawOKRow_parseRow_writeRow (c : CRow) (h : CleanCRow c) :
    RawOKRow (parseRow (writeRow c)) := by
  constructor
  · intro k hk
    rw [parseRow_writeRow c k, if_pos hk]
    refine ⟨(c k).getD [], rfl, fun ht => ?_⟩
    cases hc : c k with
    | none => rfl
    | some s =>
      simp only [Option.getD_some]
      exact h k s hc ht
  · intro k hk
    rw [parseRow_writeRow c k, if_neg hk]

theorem toCsvRows_mem_clean (m : List RawRow) (f : Option (List RawRow))
    (slug : Option Str) :
    ∀ cells ∈ toCsvRows m f slug, ∃ c, CleanCRow c ∧ cells = writeRow c := by
  intro cells hcells
  unfold toCsvRows at hcells
  by_cases hm : m.isEmpty
  · rw [if_pos hm] at hcells
    exact absurd hcells (List.not_mem_nil cells)
  · rw [if_neg hm] at hcells
    rw [List.mem_map] at hcells
    obtain ⟨c', hc', hcw⟩ := hcells
    have hsurvclean : ∀ e, e ∈ isortBy sortKey
        (dedupRows [] ((m ++ f.getD []).map cleanRow)) → CleanCRow e := by
      intro e he
      have he2 := (isortBy_perm sortKey _).mem_iff.mp he
      have he3 := (dedupRows_mem _ _ _ he2).1
      rw [List.mem_map] at he3
      obtain ⟨raw, _, hraw⟩ := he3
      rw [← hraw]
      exact CleanCRow_cleanRow raw
    cases hslug : slug with
    | none =>
      rw [hslug] at hc'
      exact ⟨c', hsurvclean c' hc', hcw.symm⟩
    | some s =>
      rw [hslug] at hc'
      obtain ⟨a, ha, v, hv⟩ := mem_assignIdsGo s _ _ _ hc'
      exact ⟨c', by rw [hv]; exact CleanCRow_setId v a (hsurvclean a ha), hcw.symm⟩

theorem RawOK_of_parseCsv_output (m : List RawRow) (f : Option (List RawRow))
    (slug : Option Str) :
    ∀ r ∈ parseCsv (toCsvRows m f slug), RawOKRow r := by
  intro r hr
  unfold parseCsv at hr
  rw [List.mem_map] at hr
  obtain ⟨cells, hcells, hrc⟩ := hr
  obtain ⟨c, hc, hcw⟩ := toCsvRows_mem_clean m f slug cells hcells
  rw [← hrc, hcw]
  exact RawOKRow_parseRow_writeRow c hc

theorem ExportProduced_ok {f : Option (List RawRow)} (h : ExportProduced f) :
    ∀ rows, f = some rows → ∀ r ∈ rows, RawOKRow r := by
  cases h with
  | nofile => intro rows hrows; exact absurd hrows (by simp)
  | step m f' slug hf' =>
    intro rows hrows r hr
    rw [← Option.some.inj hrows] at hr
    exact RawOK_of_parseCsv_output m f' slug r hr

/-! ### Cleaned rows of well-formed raw rows -/

theorem cleanRow_eq_of_vStr {r : RawRow} {k s : Str} (h : r k = PyRaw.vStr s) :
    cleanRow r k = some (if k ∈ textFieldsToClean then cleanText s else s) := by
  unfold cleanRow
  rw [h]
  rfl

theorem cleanRow_eq_of_vAbsent {r : RawRow} {k : Str} (h : r k = PyRaw.vAbsent) :
    cleanRow r k = none := by
  unfold cleanRow
  rw [h]

theorem restrictR_cleanRow_of_ok {o : RawRow} (hok : RawOKRow o) :
    restrictR (cleanRow o) = cleanRow o := by
  funext k
  unfold restrictR
  by_cases hk : k ∈ defaultCsvFields
  · rw [if_pos hk]
    obtain ⟨s, hs, _⟩ := hok.1 k hk
    rw [cleanRow_eq_of_vStr hs]
    rfl
  · rw [if_neg hk, cleanRow_eq_of_vAbsent (hok.2 k hk)]

theorem ptype_some_of_ok {o : RawRow} (hok : RawOKRow o) :
    ((cleanRow o) "presentation_type".data).isSome = true := by
  obtain ⟨s, hs, _⟩ := hok.1 "presentation_type".data (by decide)
  rw [cleanRow_eq_of_vStr hs]
  rfl

/-! ### The idempotence core: merging a written file back in reproduces the
same sorted survivor sequence -/

theorem mem_sorted_surv_clean (cl : List CRow) (h : ∀ e ∈ cl, CleanCRow e) :
    ∀ e ∈ isortBy sortKey (dedupRows [] cl), CleanCRow e := by
  intro e he
  have he1 := (isortBy_perm sortKey _).mem_iff.mp he
  exact h e (dedupRows_mem _ _ _ he1).1

theorem survSorted_map_eq (cN cO : List CRow) (final1 : List CRow)
    (τ : CRow → List Str)
    (hτres : ∀ c, τ (restrictR c) = τ c)
    (hOres : ∀ e ∈ cO, restrictR e = e)
    (hclean : ∀ e ∈ final1, CleanCRow e)
    (hkeys : final1.map uniqueKey =
      (isortBy sortKey (dedupRows [] (cN ++ cO))).map uniqueKey)
    (hfilter : ∀ p : CRow → Bool, (∀ v c, p (setId v c) = p c) →
      (final1.filter p).map τ =
        ((isortBy sortKey (dedupRows [] (cN ++ cO))).filter p).map τ) :
    (isortBy sortKey (dedupRows [] (cN ++
        (parseCsv (final1.map writeRow)).map cleanRow))).map τ =
      (isortBy sortKey (dedupRows [] (cN ++ cO))).map τ := by
  have hcF2 : (parseCsv (final1.map writeRow)).map cleanRow =
      final1.map restrictR := by
    unfold parseCsv
    rw [List.map_map, List.map_map]
    apply List.map_congr_left
    intro e he
    show cleanRow (parseRow (writeRow e)) = restrictR e
    exact cleanRow_parseRow_writeRow e (hclean e he)
  have hkeysF : (((parseCsv (final1.map writeRow)).map cleanRow).map
      uniqueKey).Nodup := by
    rw [hcF2, List.map_map]
    have h1 : final1.map (uniqueKey ∘ restrictR) = final1.map uniqueKey :=
      List.map_congr_left fun e _ => rfl
    rw [h1, hkeys]
    have hperm := (isortBy_perm sortKey (dedupRows [] (cN ++ cO))).map uniqueKey
    exact hperm.nodup_iff.mpr (dedupRows_keys_nodup _ _)
  have hdedupF : dedupRows (seenAfter [] cN)
      ((parseCsv (final1.map writeRow)).map cleanRow) =
      ((parseCsv (final1.map writeRow)).map cleanRow).filter
        (fun c => !(decide (uniqueKey c ∈ seenAfter [] cN))) :=
    dedupRows_of_nodup_keys _ _ hkeysF
  apply sorted_map_eq sortKey τ _ _ (isortBy_pairwise sortKey _)
    (isortBy_pairwise sortKey _)
  intro k
  rw [isortBy_filter_class sortKey k, isortBy_filter_class sortKey k]
  rw [dedupRows_append, dedupRows_append]
  rw [List.filter_append, List.filter_append, List.map_append, List.map_append]
  congr 1
  rw [hdedupF, List.filter_filter, hcF2, List.filter_map, List.map_map]
  have hτres' : (τ ∘ restrictR) = τ := funext hτres
  rw [hτres']
  rw [hfilter ((fun c => decide (sortKey c = k) &&
      !(decide (uniqueKey c ∈ seenAfter [] cN))) ∘ restrictR) (fun v c => rfl)]
  have hcongr : ∀ e ∈ isortBy sortKey (dedupRows [] (cN ++ cO)),
      ((fun c => decide (sortKey c = k) &&
        !(decide (uniqueKey c ∈ seenAfter [] cN))) ∘ restrictR) e =
      (decide (sortKey e = k) &&
        !(decide (uniqueKey e ∈ seenAfter [] cN))) := by
    intro e he
    show (decide (sortKey (restrictR e) = k) &&
      !(decide (uniqueKey (restrictR e) ∈ seenAfter [] cN))) = _
    rw [uniqueKey_restrictR]
    by_cases hq : uniqueKey e ∈ seenAfter [] cN
    · simp [hq]
    · have he1 := (isortBy_perm sortKey _).mem_iff.mp he
      rw [dedupRows_append] at he1
      rcases List.mem_append.mp he1 with hw | ho
      · have hmem := (dedupRows_mem _ _ _ hw).1
        have : uniqueKey e ∈ seenAfter [] cN :=
          (seenAfter_mem cN [] _).mpr (Or.inr (List.mem_map_of_mem _ hmem))
        exact absurd this hq
      · have he2 := (dedupRows_mem _ _ _ ho).1
        rw [hOres e he2]
  rw [List.filter_congr hcongr]
  have hswap : (isortBy sortKey (dedupRows [] (cN ++ cO))).filter
      (fun e => decide (sortKey e = k) &&
        !(decide (uniqueKey e ∈ seenAfter [] cN))) =
      ((isortBy sortKey (dedupRows [] (cN ++ cO))).filter
        (fun a => decide (sortKey a = k))).filter
        (fun e => !(decide (uniqueKey e ∈ seenAfter [] cN))) := by
    rw [List.filter_filter]
    exact List.filter_congr fun e _ => (Bool.and_comm _ _).symm
  rw [hswap, isortBy_filter_class sortKey k]
  rw [dedupRows_append, List.filter_append, List.filter_append]
  have hW : ((dedupRows [] cN).filter (fun a => decide (sortKey a = k))).filter
      (fun e => !(decide (uniqueKey e ∈ seenAfter [] cN))) = [] := by
    rw [List.filter_eq_nil_iff]
    intro e he
    have hmem := (dedupRows_mem _ _ _ (List.mem_of_mem_filter he)).1
    have : uniqueKey e ∈ seenAfter [] cN :=
      (seenAfter_mem cN [] _).mpr (Or.inr (List.mem_map_of_mem _ hmem))
    simp [this]
  have hO2 : ((dedupRows (seenAfter [] cN) cO).filter
      (fun a => decide (sortKey a = k))).filter
      (fun e => !(decide (uniqueKey e ∈ seenAfter [] cN))) =
      (dedupRows (seenAfter [] cN) cO).filter
        (fun a => decide (sortKey a = k)) := by
    rw [List.filter_eq_self]
    intro e he
    have := (dedupRows_mem _ _ _ (List.mem_of_mem_filter he)).2
    simp [this]
  rw [hW, hO2]
  rfl

theorem toCsvRows_idem_of_ok (N : List RawRow) (O : Option (List RawRow))
    (slug : Option Str)
    (hO : ∀ rows, O = some rows → ∀ r ∈ rows, RawOKRow r) :
    toCsvRows N (some (parseCsv (toCsvRows N O slug))) slug =
      toCsvRows N O slug := by
  by_cases hN : N.isEmpty
  · unfold toCsvRows
    rw [if_pos hN, if_pos hN]
  · have hOk : ∀ r ∈ O.getD [], RawOKRow r := by
      cases O with
      | none => intro r hr; exact absurd hr (List.not_mem_nil r)
      | some rows => intro r hr; exact hO rows rfl r hr
    have hOres : ∀ e ∈ (O.getD []).map cleanRow, restrictR e = e := by
      intro e he
      rw [List.mem_map] at he
      obtain ⟨o, ho, rfl⟩ := he
      exact restrictR_cleanRow_of_ok (hOk o ho)
    have hAclean : ∀ e ∈ isortBy sortKey (dedupRows []
        (N.map cleanRow ++ (O.getD []).map cleanRow)), CleanCRow e := by
      apply mem_sorted_surv_clean
      intro e he
      rw [← List.map_append, List.mem_map] at he
      obtain ⟨r, _, rfl⟩ := he
      exact CleanCRow_cleanRow r
    cases slug with
    | none =>
      have h1 : toCsvRows N O none =
          (isortBy sortKey (dedupRows []
            (N.map cleanRow ++ (O.getD []).map cleanRow))).map writeRow := by
        unfold toCsvRows
        rw [if_neg hN]
        show (isortBy sortKey (dedupRows []
          ((N ++ O.getD []).map cleanRow))).map writeRow = _
        rw [List.map_append]
      have hgen : ∀ P : List RawRow, toCsvRows N (some P) none =
          (isortBy sortKey (dedupRows [] (N.map cleanRow ++
            P.map cleanRow))).map writeRow := by
        intro P
        unfold toCsvRows
        rw [if_neg hN]
        show (isortBy sortKey (dedupRows []
          ((N ++ P).map cleanRow))).map writeRow = _
        rw [List.map_append]
      rw [hgen (parseCsv (toCsvRows N O none)), h1]
      exact survSorted_map_eq (N.map cleanRow) ((O.getD []).map cleanRow) _
        writeRow (fun c => writeRow_restrictR c) hOres hAclean rfl
        (fun p hp => rfl)
    | some s =>
      have h1 : toCsvRows N O (some s) =
          (assignIdsGo s 1 (isortBy sortKey (dedupRows []
            (N.map cleanRow ++ (O.getD []).map cleanRow)))).map writeRow := by
        unfold toCsvRows
        rw [if_neg hN]
        show (assignIdsGo s 1 (isortBy sortKey (dedupRows []
          ((N ++ O.getD []).map cleanRow)))).map writeRow = _
        rw [List.map_append]
      have hgen : ∀ P : List RawRow, toCsvRows N (some P) (some s) =
          (assignIdsGo s 1 (isortBy sortKey (dedupRows [] (N.map cleanRow ++
            P.map cleanRow)))).map writeRow := by
        intro P
        unfold toCsvRows
        rw [if_neg hN]
        show (assignIdsGo s 1 (isortBy sortKey (dedupRows []
          ((N ++ P).map cleanRow)))).map writeRow = _
        rw [List.map_append]
      have hfclean : ∀ e ∈ assignIdsGo s 1 (isortBy sortKey (dedupRows []
          (N.map cleanRow ++ (O.getD []).map cleanRow))), CleanCRow e := by
        intro e he
        obtain ⟨a, ha, v, rfl⟩ := mem_assignIdsGo s _ _ _ he
        exact CleanCRow_setId v a (hAclean a ha)
      have hcore := survSorted_map_eq (N.map cleanRow) ((O.getD []).map cleanRow)
        (assignIdsGo s 1 (isortBy sortKey (dedupRows []
          (N.map cleanRow ++ (O.getD []).map cleanRow))))
        (fun c => writeRow (blankIdRow c))
        (fun c => writeRow_blankId_restrictR c) hOres hfclean
        (map_uniqueKey_assignIdsGo s _ 1)
        (fun p hp => map_filter_assignIdsGo s p _ hp
          (fun v c => writeRow_blankId_setId v c) _ 1)
      rw [hgen (parseCsv (toCsvRows N O (some s))), h1]
      exact assign_write_congr s _ _ hcore 1

/-- C1 (amended): when the pre-existing file state is one the export itself
produced (no file yet, or the re-read of an earlier to_csv output), calling
to_csv a second time with the identical new-row list on the unchanged file it
just wrote yields a byte-for-byte identical output file: same surviving rows,
same sort order, same regenerated sequence ids. -/
theorem export_idempotent (N : List RawRow) (f0 : Option (List RawRow))
    (slug : Option Str) (h : ExportProduced f0) :
    toCsvFile N (some (parseCsv (toCsvRows N f0 slug))) slug =
      toCsvFile N f0 slug := by
  unfold toCsvFile
  rw [toCsvRows_idem_of_ok N f0 slug
    (fun rows hrows r hr => ExportProduced_ok h rows hrows r hr)]

/-- Witness for C1 at the scenario row written to a fresh file. -/
theorem export_idempotent_witness :
    toCsvFile [scenarioRow]
        (some (parseCsv (toCsvRows [scenarioRow] none (some "iclr".data))))
        (some "iclr".data) =
      toCsvFile [scenarioRow] none (some "iclr".data) :=
  export_idempotent [scenarioRow] none (some "iclr".data) ExportProduced.nofile

/-- Counterexample to C1 as stated: the first call runs over a handcrafted
pre-existing file whose rows lack the presentation_type column, the second
over the unchanged file the first call wrote, with the identical new-row
list, and the outputs differ byte for byte.  The absent key sorts with the
Poster default priority 2 on the first run, but the write-reread round trip
materializes it as the empty string, an unknown label of priority 3, so the
rows reorder and the sequence ids are reassigned: the first run writes the
zzz row first as c_1, the second writes the aaa row first as c_1. -/
theorem export_not_idempotent_counterexample :
    toCsvFile [newRowOtherPT]
        (some (parseCsv (toCsvRows [newRowOtherPT] (some [handRowNoPT])
          (some "c".data))))
        (some "c".data) ≠
      toCsvFile [newRowOtherPT] (some [handRowNoPT]) (some "c".data) := by
  decide

/-- C8: exporting the single scenario row with no pre-existing file writes
exactly one data row, whose join identity is p1 and whose regenerated id is
the conference slug from the file name followed by the 1-based index 1. -/
theorem export_single_row_scenario :
    (toCsvRows [scenarioRow] none
      (conferenceNameOf "iclr_papers.csv".data)).length = 1 ∧
    ((toCsvRows [scenarioRow] none
      (conferenceNameOf "iclr_papers.csv".data)).headD []).headD [] =
      "iclr_1".data ∧
    extractForumId
      (((toCsvRows [scenarioRow] none
        (conferenceNameOf "iclr_papers.csv".data)).headD []).getD 5 []) =
      some "p1".data ∧
    uniqueKey (cleanRow scenarioRow) = "p1".data :=
  ⟨rfl, rfl, rfl, rfl⟩

end PaperScraper
